import Mathlib

/-!
# A shallow embedding of `network_core.py`

This file embeds the routing core of the repository
(`src/network_core.py`) in Lean and proves the specification claims
about it.  Python floats are modelled by rationals, `float('inf')` by
the `none` value of an `Option ℚ` (called `EW` below), Python dicts by
association lists (for the router table and per-router connection
tables) or by total functions with an explicit "missing" default (for
the tentative-distance and predecessor tables whose key set is fixed),
and the `heapq` priority queue by a list together with a
minimum-extraction function — `heapq.heappop` returns the
lexicographically least `(key, vertex)` pair of the multiset, which is
exactly what `pqMin` computes.  The two unbounded `while` loops and the
predecessor walk-back are modelled with explicit fuel, with `none`
results marking fuel exhaustion; the termination theorems show the fuel
budgets passed by the top-level functions are never exhausted.
`random.uniform(0.5, 2.0)` is modelled by an explicit draw function
passed to `update_network_conditions`.
-/

namespace NetworkSim

/-- Extended weight: `some q` is a finite float value, `none` is the
`float('inf')` sentinel used by `get_effective_weight`. -/
abbrev EW := Option ℚ

/-- Rational addition computed through `mkRat`, so that concrete runs of
the algorithms reduce inside the kernel (the field operations of `ℚ` are
not definitionally computable); `ratAdd_eq` below proves it agrees with
`+`. -/
def ratAdd (a b : ℚ) : ℚ := mkRat (a.num * b.den + b.num * a.den) (a.den * b.den)

/-- Rational multiplication through `mkRat`; agrees with `*`
(`ratMul_eq`). -/
def ratMul (a b : ℚ) : ℚ := mkRat (a.num * b.num) (a.den * b.den)

/-- Rational subtraction; agrees with `-` (`ratSub_eq`). -/
def ratSub (a b : ℚ) : ℚ := ratAdd a (-b)

/-- Rational absolute value; agrees with `|·|` (`ratAbs_eq`). -/
def ratAbs (a : ℚ) : ℚ := if a < 0 then -a else a

/-- Addition of extended weights; `inf + x = inf`, as for Python floats. -/
def ewAdd : EW → EW → EW
  | some a, some b => some (ratAdd a b)
  | _, _ => none

/-- Strict comparison of extended weights (`<` on Python floats with `inf`). -/
def ewLt : EW → EW → Prop
  | some a, some b => a < b
  | some _, none => True
  | none, _ => False

/-- Non-strict comparison of extended weights. -/
def ewLe : EW → EW → Prop
  | some a, some b => a ≤ b
  | _, none => True
  | none, some _ => False

instance : ∀ a b : EW, Decidable (ewLt a b) := fun a b => by
  cases a <;> cases b <;> simp only [ewLt] <;> infer_instance

instance : ∀ a b : EW, Decidable (ewLe a b) := fun a b => by
  cases a <;> cases b <;> simp only [ewLe] <;> infer_instance

/-- Boolean form of `ewLt`, used inside the executable algorithms. -/
def ewLtB (a b : EW) : Bool := decide (ewLt a b)

/-! ## The data model (`Router`, `NetworkCore`) -/

/-- `Router.__init__`: identity, congestion multiplier (initially `1.0`),
neighbor-id → base-weight table, and 2D coordinates. -/
structure Router where
  id : Nat
  congestion : ℚ
  connections : List (Nat × ℚ)
  x : ℚ
  y : ℚ
deriving DecidableEq

/-- `NetworkCore`: router-id → `Router` table plus the algorithm mode flag. -/
structure NetworkCore where
  routers : List (Nat × Router)
  algorithm : String
deriving DecidableEq

/-- Python dict lookup on an association list (first matching key). -/
def alookup {α : Type} : List (Nat × α) → Nat → Option α
  | [], _ => none
  | p :: rest, k => if p.1 = k then some p.2 else alookup rest k

/-- Python dict assignment `d[k] = v` on an association list: replaces the
value at the first occurrence of `k`, or appends `(k, v)` if `k` is absent
(insertion order is preserved, as for Python dicts). -/
def aupdate {α : Type} : List (Nat × α) → Nat → α → List (Nat × α)
  | [], k, v => [(k, v)]
  | p :: rest, k, v => if p.1 = k then (k, v) :: rest else p :: aupdate rest k v

/-- `self.routers[a].connections[b] = w` (no-op if `a` is absent; every call
site guards membership first, mirroring the Python code which would raise
`KeyError` otherwise). -/
def updConn (rs : List (Nat × Router)) (a b : Nat) (w : ℚ) : List (Nat × Router) :=
  match alookup rs a with
  | none => rs
  | some r => aupdate rs a { r with connections := aupdate r.connections b w }

/-- `NetworkCore.add_connection` on the router table: sets the base weight in
both directions provided both ids exist, and does nothing otherwise. -/
def addConn (rs : List (Nat × Router)) (r1 r2 : Nat) (w : ℚ) : List (Nat × Router) :=
  if (alookup rs r1).isSome ∧ (alookup rs r2).isSome then
    updConn (updConn rs r1 r2 w) r2 r1 w
  else rs

/-- `NetworkCore.add_connection`. -/
def add_connection (nc : NetworkCore) (r1 r2 : Nat) (w : ℚ) : NetworkCore :=
  { nc with routers := addConn nc.routers r1 r2 w }

/-- The fixed coordinate table of `setup_network`. -/
def positions : List (ℚ × ℚ) := [(0, 0), (1, 0), (1, 1), (2, 1), (2, 2), (3, 2)]

/-- The fixed wired-link table of `setup_network`. -/
def connectionsTable : List (Nat × Nat × ℚ) :=
  [(0, 1, 1), (0, 2, 2), (1, 2, 1), (1, 3, 3), (2, 3, 2), (2, 4, 2),
   (3, 4, 1), (3, 5, 2), (4, 5, 1)]

/-- The router-creation loop of `setup_network`: `for i in range(n)` reads
`positions[i]`, which raises `IndexError` (modelled by `none`) as soon as
`i` is past the end of the coordinate table. -/
def mkRouters (n : Nat) : Option (List (Nat × Router)) :=
  (List.range n).foldl
    (fun acc i =>
      acc.bind fun rs =>
        (positions.get? i).map fun xy =>
          rs ++ [(i, { id := i, congestion := 1, connections := [], x := xy.1, y := xy.2 })])
    (some [])

/-- `NetworkCore.setup_network`: create the routers, then wire the fixed
link table through `add_connection`. -/
def setup_network (n : Nat) : Option (List (Nat × Router)) :=
  (mkRouters n).map fun rs =>
    connectionsTable.foldl (fun rs c => addConn rs c.1 c.2.1 c.2.2) rs

/-- `NetworkCore.__init__`: build the topology and select `"dijkstra"`. -/
def NetworkCore.new (n : Nat) : Option NetworkCore :=
  (setup_network n).map fun rs => { routers := rs, algorithm := "dijkstra" }

/-- `NetworkCore.set_algorithm`. -/
def set_algorithm (nc : NetworkCore) (algo : String) : NetworkCore :=
  { nc with algorithm := algo }

/-- `NetworkCore.update_network_conditions`.  The random draw
`random.uniform(0.5, 2.0)` for each router is modelled by an explicit
assignment `draw`; claims that depend on the sampling range take the
range as a hypothesis on `draw`. -/
def update_network_conditions (nc : NetworkCore) (draw : Nat → ℚ) : NetworkCore :=
  { nc with routers := nc.routers.map fun p => (p.1, { p.2 with congestion := draw p.1 }) }

/-- `NetworkCore.get_effective_weight`: `inf` if either id is unknown or
there is no direct link, otherwise `base * congestion(src) * congestion(dst)`. -/
def get_effective_weight (nc : NetworkCore) (src dst : Nat) : EW :=
  match alookup nc.routers src, alookup nc.routers dst with
  | some sr, some dr =>
    match alookup sr.connections dst with
    | none => none
    | some bw => some (ratMul (ratMul bw sr.congestion) dr.congestion)
  | some _, none => none
  | none, _ => none

/-- `NetworkCore.heuristic`: Manhattan distance between router coordinates.
The Python code raises `KeyError` on an unknown id; every call site guards
membership of both arguments, so the `0` default is never observable. -/
def heuristic (nc : NetworkCore) (current goal : Nat) : ℚ :=
  match alookup nc.routers current, alookup nc.routers goal with
  | some c, some g => ratAdd (ratAbs (ratSub c.x g.x)) (ratAbs (ratSub c.y g.y))
  | _, _ => 0

/-- The neighbor table iterated by `for neighbor in self.routers[current].connections`.
The Python code raises `KeyError` for an id not in the router table; that
branch is unreachable from the guarded call sites (see `WF`). -/
def neighborsOf (nc : NetworkCore) (i : Nat) : List (Nat × ℚ) :=
  match alookup nc.routers i with
  | some r => r.connections
  | none => []

/-! ## Priority queue (`heapq`) -/

/-- Lexicographic comparison of `(key, vertex)` heap entries, as Python
compares the `(distance, router_id)` tuples pushed on the heap. -/
def entryLeB (a b : EW × Nat) : Bool :=
  ewLtB a.1 b.1 || (decide (a.1 = b.1) && decide (a.2 ≤ b.2))

/-- The least entry of the heap multiset: `heapq.heappop` always returns a
minimal element under the tuple order. -/
def pqMin : List (EW × Nat) → Option (EW × Nat)
  | [] => none
  | e :: rest =>
    match pqMin rest with
    | none => some e
    | some m => if entryLeB e m then some e else some m

/-! ## Dijkstra (`find_shortest_path`) -/

/-- Search state of `find_shortest_path`: the `distances` and `previous`
dicts (total functions; ids outside the router table are never accessed by
the guarded algorithm and carry the defaults `inf` / `None`), the heap
`pq`, and the `visited` set. -/
structure DijkstraState where
  distances : Nat → EW
  previous : Nat → Option Nat
  pq : List (EW × Nat)
  visited : List Nat

/-- One relaxation of `find_shortest_path`'s inner `for` loop.  Note the
tentative distance is computed from the popped key `currentDistance`,
exactly as the Python code uses the popped `current_distance`. -/
def dijkstraRelax (nc : NetworkCore) (current : Nat) (currentDistance : EW)
    (st : DijkstraState) (nb : Nat × ℚ) : DijkstraState :=
  let neighbor := nb.1
  if neighbor ∈ st.visited then st
  else
    let weight := get_effective_weight nc current neighbor
    let distance := ewAdd currentDistance weight
    if ewLtB distance (st.distances neighbor) then
      { distances := fun v => if v = neighbor then distance else st.distances v
        previous := fun v => if v = neighbor then some current else st.previous v
        pq := st.pq ++ [(distance, neighbor)]
        visited := st.visited }
    else st

/-- The `while pq:` loop of `find_shortest_path`, with fuel.  A popped
entry already in `visited` is skipped; popping the target breaks out of
the loop; otherwise the popped router is settled and its neighbors are
relaxed. -/
def dijkstraLoop (nc : NetworkCore) (ed : Nat) : Nat → DijkstraState → Option DijkstraState
  | 0, _ => none
  | fuel + 1, st =>
    match pqMin st.pq with
    | none => some st
    | some entry =>
      let current := entry.2
      let rest := st.pq.erase entry
      if current ∈ st.visited then
        dijkstraLoop nc ed fuel { st with pq := rest }
      else if current = ed then
        some { st with pq := rest }
      else
        dijkstraLoop nc ed fuel
          ((neighborsOf nc current).foldl (dijkstraRelax nc current entry.1)
            { st with pq := rest, visited := current :: st.visited })

/-- The path-reconstruction loop `while current is not None`, with fuel;
it returns the reversed path `[end, ..., start]` exactly as the Python
loop accumulates it before `path.reverse()`. -/
def walkPrevious (previous : Nat → Option Nat) : Nat → Nat → Option (List Nat)
  | 0, _ => none
  | fuel + 1, current =>
    match previous current with
    | none => some [current]
    | some p => (walkPrevious previous fuel p).map fun path => current :: path

/-- Total number of directed adjacency entries; bounds the number of heap
pushes and hence of loop iterations. -/
def degreeSum (nc : NetworkCore) : Nat :=
  (nc.routers.map fun p => p.2.connections.length).sum

/-- Fuel budget for the two search loops (shown sufficient below): the
loop body runs at most once per initial heap entry (one) plus once per
push (at most one per directed adjacency entry), plus a final iteration
that observes the empty heap. -/
def searchFuel (nc : NetworkCore) : Nat := degreeSum nc + 2

/-- Fuel budget for the walk-back loop (shown sufficient below). -/
def walkFuel (nc : NetworkCore) : Nat := nc.routers.length + 1

/-- `NetworkCore.find_shortest_path`.  The outer `Option` is the fuel
sentinel (`none` never occurs, see the termination theorem); the inner
`Option` is Python's `None` result for "unknown id" or "no path". -/
def find_shortest_path (nc : NetworkCore) (start ed : Nat) : Option (Option (List Nat)) :=
  if (alookup nc.routers start).isSome ∧ (alookup nc.routers ed).isSome then
    let st0 : DijkstraState :=
      { distances := fun v => if v = start then some 0 else none
        previous := fun _ => none
        pq := [(some 0, start)]
        visited := [] }
    match dijkstraLoop nc ed (searchFuel nc) st0 with
    | none => none
    | some st =>
      if st.distances ed = none then some none
      else (walkPrevious st.previous (walkFuel nc) ed).map fun backward => some backward.reverse
  else some none

/-! ## A* (`find_path_astar`) -/

/-- Search state of `find_path_astar`: the `g_score`, `f_score` and
`previous` dicts, the `open_set` heap and the `closed_set`. -/
structure AStarState where
  gScore : Nat → EW
  fScore : Nat → EW
  previous : Nat → Option Nat
  openSet : List (EW × Nat)
  closedSet : List Nat

/-- One relaxation of `find_path_astar`'s inner `for` loop; the tentative
distance comes from `g_score[current]` and the pushed priority is
`f_score[neighbor] = tentative_g + heuristic(neighbor, end)`. -/
def astarRelax (nc : NetworkCore) (ed current : Nat)
    (st : AStarState) (nb : Nat × ℚ) : AStarState :=
  let neighbor := nb.1
  if neighbor ∈ st.closedSet then st
  else
    let weight := get_effective_weight nc current neighbor
    let tentativeG := ewAdd (st.gScore current) weight
    if ewLtB tentativeG (st.gScore neighbor) then
      let newF := ewAdd tentativeG (some (heuristic nc neighbor ed))
      { gScore := fun v => if v = neighbor then tentativeG else st.gScore v
        fScore := fun v => if v = neighbor then newF else st.fScore v
        previous := fun v => if v = neighbor then some current else st.previous v
        openSet := st.openSet ++ [(newF, neighbor)]
        closedSet := st.closedSet }
    else st

/-- The `while open_set:` loop of `find_path_astar`, with fuel.  Unlike
`dijkstraLoop` the target test comes before the closed-set test, matching
the Python code. -/
def astarLoop (nc : NetworkCore) (ed : Nat) : Nat → AStarState → Option AStarState
  | 0, _ => none
  | fuel + 1, st =>
    match pqMin st.openSet with
    | none => some st
    | some entry =>
      let current := entry.2
      let rest := st.openSet.erase entry
      if current = ed then
        some { st with openSet := rest }
      else if current ∈ st.closedSet then
        astarLoop nc ed fuel { st with openSet := rest }
      else
        astarLoop nc ed fuel
          ((neighborsOf nc current).foldl (astarRelax nc ed current)
            { st with openSet := rest, closedSet := current :: st.closedSet })

/-- `NetworkCore.find_path_astar` (same result conventions as
`find_shortest_path`). -/
def find_path_astar (nc : NetworkCore) (start ed : Nat) : Option (Option (List Nat)) :=
  if (alookup nc.routers start).isSome ∧ (alookup nc.routers ed).isSome then
    let st0 : AStarState :=
      { gScore := fun v => if v = start then some 0 else none
        fScore := fun v => if v = start then some (heuristic nc start ed) else none
        previous := fun _ => none
        openSet := [(some (heuristic nc start ed), start)]
        closedSet := [] }
    match astarLoop nc ed (searchFuel nc) st0 with
    | none => none
    | some st =>
      if st.gScore ed = none then some none
      else (walkPrevious st.previous (walkFuel nc) ed).map fun backward => some backward.reverse
  else some none

/-- `NetworkCore.find_path`: dispatch on the algorithm flag.  The
wall-clock duration returned alongside the path by the Python code is an
observability side channel and is not modelled. -/
def find_path (nc : NetworkCore) (start ed : Nat) : Option (Option (List Nat)) :=
  if nc.algorithm = "astar" then find_path_astar nc start ed
  else find_shortest_path nc start ed

/-! ## Snapshot (`get_network_state`) -/

/-- Per-router view captured by the snapshot. -/
structure RouterView where
  congestion : ℚ
  x : ℚ
  y : ℚ
deriving DecidableEq

/-- `get_network_state`'s result dictionary. -/
structure NetworkState where
  routers : List (Nat × RouterView)
  connections : List (Nat × Nat × ℚ × EW)
  algorithm : String
deriving DecidableEq

/-- `NetworkCore.get_network_state`.  The Python guard
`if (dst_id, src_id) not in state['connections']` compares a 2-tuple
against the 4-tuples stored in the list, so it is true for every entry
and every directed adjacency entry is appended. -/
def get_network_state (nc : NetworkCore) : NetworkState :=
  { routers := nc.routers.map fun p =>
      (p.1, { congestion := p.2.congestion, x := p.2.x, y := p.2.y })
    connections := nc.routers.foldl
      (fun acc p => p.2.connections.foldl
        (fun acc c => acc ++ [(p.1, c.1, c.2, get_effective_weight nc p.1 c.1)]) acc)
      []
    algorithm := nc.algorithm }

/-! ## Specification-level notions: links, paths, costs, well-formedness -/

/-- The base weight recorded from `a` to `b`, if any. -/
def connBase (nc : NetworkCore) (a b : Nat) : Option ℚ :=
  match alookup nc.routers a with
  | some r => alookup r.connections b
  | none => none

/-- `a` and `b` are joined by an existing (directed) link entry. -/
def Linked (nc : NetworkCore) (a b : Nat) : Prop := (connBase nc a b).isSome

/-- `ValidPath nc s e p`: `p` is an ordered sequence of router ids from
`s` to `e` inclusive in which each consecutive pair is joined by an
existing link. -/
inductive ValidPath (nc : NetworkCore) : Nat → Nat → List Nat → Prop
  | single (a : Nat) : ValidPath nc a a [a]
  | cons (a b e : Nat) (p : List Nat) : Linked nc a b → ValidPath nc b e p →
      ValidPath nc a e (a :: p)

/-- Total effective weight along a path: the sum of the effective weights
of its consecutive pairs. -/
def pathCost (nc : NetworkCore) : List Nat → EW
  | [] => some 0
  | [_] => some 0
  | a :: b :: rest => ewAdd (get_effective_weight nc a b) (pathCost nc (b :: rest))

/-- Well-formedness of a router table: every id appearing in a connection
table is itself a router id.  Every state constructed or reachable through
the code's operations satisfies this (`add_connection` checks both ids);
it is the condition under which the Python dict accesses of the search
loops cannot raise `KeyError`. -/
def WF (nc : NetworkCore) : Prop :=
  ∀ p ∈ nc.routers, ∀ c ∈ p.2.connections, (alookup nc.routers c.1).isSome

instance (nc : NetworkCore) : Decidable (WF nc) := by
  unfold WF; infer_instance

/-- Every router's congestion multiplier is exactly `1` (the `Router.__init__`
default, in force until the first `update_network_conditions`). -/
def CongOne (nc : NetworkCore) : Prop :=
  ∀ p ∈ nc.routers, p.2.congestion = 1

instance (nc : NetworkCore) : Decidable (CongOne nc) := by
  unfold CongOne; infer_instance

/-- All effective weights are nonnegative (the spec guarantees this from
`congestion ≥ 0.5` and positive base weights). -/
def EffNonneg (nc : NetworkCore) : Prop :=
  ∀ a b, ewLe (some 0) (get_effective_weight nc a b)

/-- Link symmetry: the recorded base weight from `a` to `b` always equals
the one from `b` to `a` (including absence). -/
def SymmetricLinks (nc : NetworkCore) : Prop :=
  ∀ a b, connBase nc a b = connBase nc b a

/-- No router records a link to itself. -/
def NoSelfLoops (nc : NetworkCore) : Prop :=
  ∀ a, connBase nc a a = none

/-- The empty network (used only as a `getD` default in closed
statements about concrete networks). -/
def emptyNetwork : NetworkCore := { routers := [], algorithm := "dijkstra" }

/-- The 6-router reference network built by `NetworkCore(6)`. -/
def refNetwork : NetworkCore := (NetworkCore.new 6).getD emptyNetwork

/-! ## A potential-generalized search loop

`find_shortest_path` and `find_path_astar` share one relaxation /
priority-frontier scheme and differ only in the priority key: Dijkstra
pushes the tentative distance itself, A* adds the heuristic value of the
pushed vertex.  `genLoop` is that shared scheme with an arbitrary
potential `pot`; both concrete loops are proved to simulate it, and the
correctness argument is carried out once on `genLoop`. -/

/-- State of the generalized loop (the A* state without the write-only
`f_score` table). -/
structure GState where
  dist : Nat → EW
  prev : Nat → Option Nat
  pq : List (EW × Nat)
  visited : List Nat

/-- Generalized relaxation: tentative distance from the current vertex's
tentative distance, pushed priority `tentative + pot neighbor`. -/
def genRelax (nc : NetworkCore) (pot : Nat → ℚ) (current : Nat)
    (st : GState) (nb : Nat × ℚ) : GState :=
  let neighbor := nb.1
  if neighbor ∈ st.visited then st
  else
    let weight := get_effective_weight nc current neighbor
    let tentative := ewAdd (st.dist current) weight
    if ewLtB tentative (st.dist neighbor) then
      { dist := fun v => if v = neighbor then tentative else st.dist v
        prev := fun v => if v = neighbor then some current else st.prev v
        pq := st.pq ++ [(ewAdd tentative (some (pot neighbor)), neighbor)]
        visited := st.visited }
    else st

/-- The generalized search loop (target test first, as in `astarLoop`;
`dijkstraLoop` never pops the target from inside `visited`, so the test
order difference is immaterial — this is proved, not assumed). -/
def genLoop (nc : NetworkCore) (pot : Nat → ℚ) (ed : Nat) :
    Nat → GState → Option GState
  | 0, _ => none
  | fuel + 1, st =>
    match pqMin st.pq with
    | none => some st
    | some entry =>
      let current := entry.2
      let rest := st.pq.erase entry
      if current = ed then
        some { st with pq := rest }
      else if current ∈ st.visited then
        genLoop nc pot ed fuel { st with pq := rest }
      else
        genLoop nc pot ed fuel
          ((neighborsOf nc current).foldl (genRelax nc pot current)
            { st with pq := rest, visited := current :: st.visited })

/-- Projection of the Dijkstra state onto the generalized state. -/
def d2g (st : DijkstraState) : GState :=
  { dist := st.distances, prev := st.previous, pq := st.pq, visited := st.visited }

/-- Projection of the A* state onto the generalized state (drops the
write-only `f_score` table). -/
def a2g (st : AStarState) : GState :=
  { dist := st.gScore, prev := st.previous, pq := st.openSet, visited := st.closedSet }

/-- The A* potential: heuristic distance to the target. -/
def potTo (nc : NetworkCore) (ed : Nat) : Nat → ℚ := fun v => heuristic nc v ed

/-- `ChainP prev v p`: starting from `v` and following `prev` until `None`
yields exactly the reversed list `p` — i.e. `p` is the forward path that
the reconstruction loop recovers for `v`. -/
inductive ChainP (prev : Nat → Option Nat) : Nat → List Nat → Prop
  | base (v : Nat) : prev v = none → ChainP prev v [v]
  | step (u v : Nat) (p : List Nat) : prev v = some u → ChainP prev u p →
      ChainP prev v (p ++ [v])

/-- Directed adjacency entries still chargeable to unvisited routers;
the loop-termination measure combines it with the heap size. -/
def restDeg (rs : List (Nat × Router)) (visited : List Nat) : Nat :=
  ((rs.filter fun p => p.1 ∉ visited).map fun p => p.2.connections.length).sum

/-- Consistency of a potential: along every link, `pot` drops by at most
the link's effective weight.  For `pot = 0` this is nonnegativity of the
weights; for the Manhattan heuristic it is the standard consistency
(monotonicity) condition. -/
def Consistent (nc : NetworkCore) (pot : Nat → ℚ) : Prop :=
  ∀ a b, Linked nc a b →
    ewLe (some (pot a)) (ewAdd (get_effective_weight nc a b) (some (pot b)))

/-- Reconstruction invariant: every vertex with a finite tentative
distance has a duplicate-free predecessor chain of known routers, which is
a valid path from `s` costing at most the tentative distance, and whose
proper prefix is settled. -/
def ChainInv (nc : NetworkCore) (s : Nat) (st : GState) : Prop :=
  ∀ v, st.dist v ≠ none → ∃ p, ChainP st.prev v p ∧ ValidPath nc s v p ∧
    ewLe (pathCost nc p) (st.dist v) ∧ p.Nodup ∧
    (∀ x ∈ p, (alookup nc.routers x).isSome) ∧
    (∀ x ∈ p, x ≠ v → x ∈ st.visited)

/-- Final-state facts delivered by the master loop theorem: the
reconstruction invariant, and the returned tentative distance of the
target is `inf` exactly on unreachable targets and otherwise a lower
bound on (hence, with the chain, the exact value of) every path cost. -/
def GFinal (nc : NetworkCore) (s ed : Nat) (st : GState) : Prop :=
  ChainInv nc s st ∧
  (st.dist ed = none → ∀ q, ¬ ValidPath nc s ed q) ∧
  (st.dist ed ≠ none → ∀ q, ValidPath nc s ed q → ewLe (st.dist ed) (pathCost nc q))

/-- Simulation invariant tying `dijkstraLoop` to `genLoop` with zero
potential: every heap key dominates the current tentative distance of its
vertex, every unvisited vertex with a finite tentative distance still has
its exact tentative distance on the heap, and the target is never
visited.  It makes the popped key equal to the popped vertex's tentative
distance on fresh pops, which is the only place the two loops differ. -/
structure DInv (ed : Nat) (st : DijkstraState) : Prop where
  keyDom : ∀ kv ∈ st.pq, ewLe (st.distances kv.2) kv.1
  keyCov : ∀ v, v ∉ st.visited → st.distances v ≠ none → (st.distances v, v) ∈ st.pq
  edFree : ed ∉ st.visited

/-- The full loop invariant of the generalized search. -/
structure GInv (nc : NetworkCore) (s ed : Nat) (pot : Nat → ℚ) (st : GState) : Prop where
  distS : st.dist s = some 0
  distNonneg : ∀ v, ewLe (some 0) (st.dist v)
  chains : ChainInv nc s st
  settledOpt : ∀ v ∈ st.visited, ∀ q, ValidPath nc s v q → ewLe (st.dist v) (pathCost nc q)
  settledFin : ∀ v ∈ st.visited, st.dist v ≠ none
  edgeRelaxed : ∀ u ∈ st.visited, ∀ c ∈ neighborsOf nc u, c.1 ∉ st.visited →
      ewLe (st.dist c.1) (ewAdd (st.dist u) (get_effective_weight nc u c.1))
  pqBound : ∀ kv ∈ st.pq, st.dist kv.2 ≠ none ∧
      ewLe (ewAdd (st.dist kv.2) (some (pot kv.2))) kv.1
  coverage : ∀ v, v ∉ st.visited → st.dist v ≠ none →
      ∃ k, (k, v) ∈ st.pq ∧ ewLe k (ewAdd (st.dist v) (some (pot v)))
  pqRouters : ∀ kv ∈ st.pq, (alookup nc.routers kv.2).isSome
  visitedRouters : ∀ v ∈ st.visited, (alookup nc.routers v).isSome
  edFree : ed ∉ st.visited

/-- `GInv` with the edge-relaxation field split by settling vertex:
the state invariant holding midway through relaxing the neighbors of the
just-settled vertex `cur` (the members of `done` are relaxed already). -/
structure MidInv (nc : NetworkCore) (s ed : Nat) (pot : Nat → ℚ) (cur : Nat)
    (done : List (Nat × ℚ)) (st : GState) : Prop where
  distS : st.dist s = some 0
  distNonneg : ∀ v, ewLe (some 0) (st.dist v)
  chains : ChainInv nc s st
  settledOpt : ∀ v ∈ st.visited, ∀ q, ValidPath nc s v q → ewLe (st.dist v) (pathCost nc q)
  settledFin : ∀ v ∈ st.visited, st.dist v ≠ none
  edgeOld : ∀ u ∈ st.visited, u ≠ cur → ∀ c ∈ neighborsOf nc u, c.1 ∉ st.visited →
      ewLe (st.dist c.1) (ewAdd (st.dist u) (get_effective_weight nc u c.1))
  edgeCur : ∀ c ∈ done, c.1 ∉ st.visited →
      ewLe (st.dist c.1) (ewAdd (st.dist cur) (get_effective_weight nc cur c.1))
  pqBound : ∀ kv ∈ st.pq, st.dist kv.2 ≠ none ∧
      ewLe (ewAdd (st.dist kv.2) (some (pot kv.2))) kv.1
  coverage : ∀ v, v ∉ st.visited → st.dist v ≠ none →
      ∃ k, (k, v) ∈ st.pq ∧ ewLe k (ewAdd (st.dist v) (some (pot v)))
  pqRouters : ∀ kv ∈ st.pq, (alookup nc.routers kv.2).isSome
  visitedRouters : ∀ v ∈ st.visited, (alookup nc.routers v).isSome
  edFree : ed ∉ st.visited
  curMem : cur ∈ st.visited

/-! ## Reachable states -/

/-- States reachable from construction through the mutating operations.
`find_path` (either algorithm) and `get_network_state` read the state
without modifying it — in this embedding they are pure functions that
return no new state — so only `add_connection` and
`update_network_conditions` appear as steps. -/
inductive Reachable : NetworkCore → Prop
  | construct (n : Nat) (nc : NetworkCore) : NetworkCore.new n = some nc → Reachable nc
  | addLink (nc : NetworkCore) (a b : Nat) (w : ℚ) : Reachable nc →
      Reachable (add_connection nc a b w)
  | resample (nc : NetworkCore) (draw : Nat → ℚ) : Reachable nc →
      Reachable (update_network_conditions nc draw)

/-- Reachability restricted to `add_connection` calls with distinct
endpoints. -/
inductive ReachableNS : NetworkCore → Prop
  | construct (n : Nat) (nc : NetworkCore) : NetworkCore.new n = some nc → ReachableNS nc
  | addLink (nc : NetworkCore) (a b : Nat) (w : ℚ) : ReachableNS nc → a ≠ b →
      ReachableNS (add_connection nc a b w)
  | resample (nc : NetworkCore) (draw : Nat → ℚ) : ReachableNS nc →
      ReachableNS (update_network_conditions nc draw)

/-! ## Concrete instances used in closed statements -/

/-- The congestion assignment of the A*-vs-Dijkstra counterexample
(all six values lie in the sampling range `[0.5, 2.0]`). -/
def congX : Nat → ℚ := fun i =>
  ([mkRat 1 2, mkRat 1 2, mkRat 3 4, mkRat 3 2, mkRat 3 2, mkRat 3 2] : List ℚ).getD i 1

/-- The reference topology with congestion `congX`: the Manhattan
heuristic is admissible towards router 5 here, yet A* and Dijkstra
return paths of different total effective weight. -/
def ncX : NetworkCore := update_network_conditions refNetwork congX

/-! # Theorems

## The computable rational operations agree with the field operations -/

theorem rat_mul_den_eq_num (q : ℚ) : q * (q.den : ℚ) = (q.num : ℚ) := by
  have h := Rat.num_div_den q
  have hd : ((q.den : ℚ)) ≠ 0 := Nat.cast_ne_zero.mpr q.den_nz
  calc q * (q.den : ℚ) = ((q.num : ℚ) / q.den) * q.den := by rw [h]
  _ = q.num := div_mul_cancel₀ _ hd

@[simp]
theorem ratAdd_eq (a b : ℚ) : ratAdd a b = a + b := by
  have ha : ((a.den : ℚ)) ≠ 0 := Nat.cast_ne_zero.mpr a.den_nz
  have hb : ((b.den : ℚ)) ≠ 0 := Nat.cast_ne_zero.mpr b.den_nz
  unfold ratAdd
  rw [Rat.mkRat_eq_div]
  push_cast
  rw [div_eq_iff (mul_ne_zero ha hb), add_mul,
    show a * ((a.den : ℚ) * b.den) = (a * (a.den : ℚ)) * b.den from by ring,
    show b * ((a.den : ℚ) * b.den) = (b * (b.den : ℚ)) * a.den from by ring,
    rat_mul_den_eq_num a, rat_mul_den_eq_num b]

@[simp]
theorem ratMul_eq (a b : ℚ) : ratMul a b = a * b := by
  have ha : ((a.den : ℚ)) ≠ 0 := Nat.cast_ne_zero.mpr a.den_nz
  have hb : ((b.den : ℚ)) ≠ 0 := Nat.cast_ne_zero.mpr b.den_nz
  unfold ratMul
  rw [Rat.mkRat_eq_div]
  push_cast
  rw [div_eq_iff (mul_ne_zero ha hb),
    show a * b * ((a.den : ℚ) * b.den) = (a * (a.den : ℚ)) * (b * (b.den : ℚ)) from by ring,
    rat_mul_den_eq_num a, rat_mul_den_eq_num b]

@[simp]
theorem ratSub_eq (a b : ℚ) : ratSub a b = a - b := by
  unfold ratSub
  rw [ratAdd_eq, ← sub_eq_add_neg]

@[simp]
theorem ratAbs_eq (a : ℚ) : ratAbs a = |a| := by
  unfold ratAbs
  by_cases h : a < 0
  · rw [if_pos h, abs_of_neg h]
  · rw [if_neg h, abs_of_nonneg (not_lt.mp h)]

/-! ## Extended-weight arithmetic and order -/

theorem ewLe_refl (a : EW) : ewLe a a := by cases a <;> simp [ewLe]

theorem ewLe_trans {a b c : EW} (h1 : ewLe a b) (h2 : ewLe b c) : ewLe a c := by
  cases a <;> cases b <;> cases c <;> simp_all [ewLe] <;> exact le_trans h1 h2

theorem ewLe_antisymm {a b : EW} (h1 : ewLe a b) (h2 : ewLe b a) : a = b := by
  cases a <;> cases b <;> simp_all [ewLe] <;> exact le_antisymm h1 h2

theorem ewLt_of_ewLtB {a b : EW} (h : ewLtB a b = true) : ewLt a b := by
  simpa [ewLtB] using h

theorem ewLe_of_not_ewLtB {a b : EW} (h : ¬ ewLtB a b = true) : ewLe b a := by
  simp only [ewLtB, decide_eq_true_eq] at h
  cases a <;> cases b <;> simp_all [ewLt, ewLe] <;> omega

theorem ewLe_of_ewLt {a b : EW} (h : ewLt a b) : ewLe a b := by
  cases a <;> cases b <;> simp_all [ewLt, ewLe] <;> exact le_of_lt h

theorem not_ewLt_of_ewLe {a b : EW} (h : ewLe a b) : ¬ ewLt b a := by
  cases a <;> cases b <;> simp_all [ewLt, ewLe]

theorem ewLe_none (a : EW) : ewLe a none := by cases a <;> simp [ewLe]

theorem ewLe_some_dest {a : EW} {x : ℚ} (h : ewLe a (some x)) : ∃ y, a = some y := by
  cases a <;> simp_all [ewLe]

theorem ewAdd_assoc (a b c : EW) : ewAdd (ewAdd a b) c = ewAdd a (ewAdd b c) := by
  cases a <;> cases b <;> cases c <;> simp [ewAdd, add_assoc]

theorem ewAdd_comm (a b : EW) : ewAdd a b = ewAdd b a := by
  cases a <;> cases b <;> simp [ewAdd, add_comm]

theorem ewAdd_zero_left (a : EW) : ewAdd (some 0) a = a := by
  cases a <;> simp [ewAdd]

theorem ewAdd_zero_right (a : EW) : ewAdd a (some 0) = a := by
  cases a <;> simp [ewAdd]

theorem ewAdd_ne_none {a b : EW} (h : ewAdd a b ≠ none) : a ≠ none ∧ b ≠ none := by
  cases a <;> cases b <;> simp_all [ewAdd]

theorem ewLe_add_right {a b : EW} (c : EW) (h : ewLe a b) :
    ewLe (ewAdd a c) (ewAdd b c) := by
  cases a <;> cases b <;> cases c <;> simp_all [ewLe, ewAdd]

theorem ewLe_add_left {a b : EW} (c : EW) (h : ewLe a b) :
    ewLe (ewAdd c a) (ewAdd c b) := by
  cases a <;> cases b <;> cases c <;> simp_all [ewLe, ewAdd]

theorem ewLe_add_cancel {a b : EW} {c : ℚ}
    (h : ewLe (ewAdd a (some c)) (ewAdd b (some c))) : ewLe a b := by
  cases a <;> cases b <;> simp_all [ewLe, ewAdd]

theorem ewAdd_nonneg {a b : EW} (ha : ewLe (some 0) a) (hb : ewLe (some 0) b) :
    ewLe (some 0) (ewAdd a b) := by
  cases a <;> cases b <;> simp_all [ewLe, ewAdd]
  positivity

/-! ## Association lists -/

theorem alookup_aupdate {α : Type} (l : List (Nat × α)) (k k' : Nat) (v : α) :
    alookup (aupdate l k v) k' = if k = k' then some v else alookup l k' := by
  induction l with
  | nil => by_cases h : k = k' <;> simp [aupdate, alookup, h]
  | cons p rest ih =>
    by_cases hp : p.1 = k
    · by_cases h : k = k' <;> simp [aupdate, alookup, hp, h] <;> simp [← h, hp]
    · simp only [aupdate, hp, if_false]
      by_cases h : p.1 = k'
      · have : ¬ k = k' := fun e => hp (e ▸ h)
        simp [alookup, h, this]
      · simp [alookup, h, ih]

theorem alookup_mem {α : Type} {l : List (Nat × α)} {k : Nat} {v : α}
    (h : alookup l k = some v) : (k, v) ∈ l := by
  induction l with
  | nil => simp [alookup] at h
  | cons p rest ih =>
    by_cases hp : p.1 = k
    · simp only [alookup, hp, if_true, Option.some.injEq] at h
      have hpv : p = (k, v) := by cases p; simp_all
      simp [hpv]
    · simp only [alookup, hp, if_false] at h
      exact List.mem_cons_of_mem _ (ih h)

theorem alookup_isSome_of_mem {α : Type} {l : List (Nat × α)} {k : Nat} {v : α}
    (h : (k, v) ∈ l) : (alookup l k).isSome := by
  induction l with
  | nil => simp at h
  | cons p rest ih =>
    rcases List.mem_cons.mp h with h | h
    · simp [alookup, ← h]
    · by_cases hp : p.1 = k <;> simp [alookup, hp, ih h]

theorem aupdate_keys_of_mem {α : Type} (l : List (Nat × α)) (k : Nat) (v : α)
    (h : (alookup l k).isSome) :
    (aupdate l k v).map Prod.fst = l.map Prod.fst := by
  induction l with
  | nil => simp [alookup] at h
  | cons p rest ih =>
    by_cases hp : p.1 = k
    · simp [aupdate, hp]
    · simp only [alookup, hp, if_false] at h
      simp [aupdate, hp, ih h]

theorem alookup_map_congr {α β : Type} (l : List (Nat × α)) (f : Nat × α → β) (k : Nat) :
    alookup (l.map fun p => (p.1, f p)) k = (alookup l k).map fun a => f (k, a) := by
  induction l with
  | nil => simp [alookup]
  | cons p rest ih =>
    by_cases hp : p.1 = k
    · subst hp; simp [alookup, ih]
    · simp [alookup, hp, ih]

/-! ## Heap-minimum lemmas -/

theorem ewLe_of_entryLeB {a b : EW × Nat} (h : entryLeB a b = true) : ewLe a.1 b.1 := by
  simp only [entryLeB, Bool.or_eq_true, Bool.and_eq_true, decide_eq_true_eq] at h
  rcases h with h | ⟨h, _⟩
  · exact ewLe_of_ewLt (ewLt_of_ewLtB h)
  · rw [h]; exact ewLe_refl _

theorem entryLeB_total (a b : EW × Nat) : entryLeB a b = true ∨ entryLeB b a = true := by
  rcases a with ⟨a1, a2⟩; rcases b with ⟨b1, b2⟩
  simp only [entryLeB, ewLtB, Bool.or_eq_true, Bool.and_eq_true, decide_eq_true_eq]
  cases a1 <;> cases b1 <;> simp [ewLt]
  · omega
  · rename_i x y
    rcases lt_trichotomy x y with h | h | h
    · exact Or.inl (Or.inl h)
    · subst h
      rcases Nat.le_total a2 b2 with h2 | h2
      · exact Or.inl (Or.inr ⟨rfl, h2⟩)
      · exact Or.inr (Or.inr ⟨rfl, h2⟩)
    · exact Or.inr (Or.inl h)

theorem ewLt_trans {a b c : EW} (h1 : ewLt a b) (h2 : ewLt b c) : ewLt a c := by
  cases a <;> cases b <;> cases c <;> simp_all [ewLt]
  exact lt_trans h1 h2

theorem entryLeB_refl (a : EW × Nat) : entryLeB a a = true :=
  (entryLeB_total a a).elim id id

theorem entryLeB_trans {a b c : EW × Nat} (h1 : entryLeB a b = true)
    (h2 : entryLeB b c = true) : entryLeB a c = true := by
  rcases a with ⟨a1, a2⟩; rcases b with ⟨b1, b2⟩; rcases c with ⟨c1, c2⟩
  simp only [entryLeB, ewLtB, Bool.or_eq_true, Bool.and_eq_true, decide_eq_true_eq] at *
  rcases h1 with h1 | ⟨h1, h1'⟩
  · rcases h2 with h2 | ⟨h2, h2'⟩
    · exact Or.inl (ewLt_trans h1 h2)
    · exact Or.inl (h2 ▸ h1)
  · rcases h2 with h2 | ⟨h2, h2'⟩
    · exact Or.inl (h1 ▸ h2)
    · exact Or.inr ⟨h1.trans h2, h1'.trans h2'⟩

theorem pqMin_mem {l : List (EW × Nat)} {m : EW × Nat} (h : pqMin l = some m) : m ∈ l := by
  induction l generalizing m with
  | nil => simp [pqMin] at h
  | cons a rest ih =>
    simp only [pqMin] at h
    cases hr : pqMin rest with
    | none =>
      simp only [hr] at h
      have hm : a = m := by simpa using h
      simp [hm]
    | some m' =>
      simp only [hr] at h
      by_cases he : entryLeB a m' = true
      · rw [if_pos he] at h
        have hm : a = m := by simpa using h
        simp [hm]
      · rw [if_neg he] at h
        have hm : m' = m := by simpa using h
        exact List.mem_cons_of_mem _ (ih (hm ▸ hr))

theorem pqMin_none {l : List (EW × Nat)} (h : pqMin l = none) : l = [] := by
  cases l with
  | nil => rfl
  | cons a rest =>
    exfalso
    simp only [pqMin] at h
    cases hr : pqMin rest with
    | none => simp only [hr] at h; simp at h
    | some m =>
      simp only [hr] at h
      by_cases he : entryLeB a m = true <;> simp [he] at h

theorem pqMin_le {l : List (EW × Nat)} {m : EW × Nat} (h : pqMin l = some m) :
    ∀ x ∈ l, entryLeB m x = true := by
  induction l generalizing m with
  | nil => simp [pqMin] at h
  | cons a rest ih =>
    simp only [pqMin] at h
    cases hr : pqMin rest with
    | none =>
      simp only [hr] at h
      have hm : a = m := by simpa using h
      have hrest : rest = [] := pqMin_none hr
      subst hm hrest
      intro x hx
      simp only [List.mem_singleton] at hx
      subst hx
      exact entryLeB_refl x
    | some m' =>
      simp only [hr] at h
      by_cases he : entryLeB a m' = true
      · rw [if_pos he] at h
        have hm : a = m := by simpa using h
        subst hm
        intro x hx
        rcases List.mem_cons.mp hx with rfl | hx
        · exact entryLeB_refl x
        · exact entryLeB_trans he (ih hr x hx)
      · rw [if_neg he] at h
        have hm : m' = m := by simpa using h
        intro x hx
        rcases List.mem_cons.mp hx with rfl | hx
        · rcases entryLeB_total x m' with ht | ht
          · exact absurd ht he
          · exact hm ▸ ht
        · exact hm ▸ ih hr x hx

/-! ## Paths, costs, links -/

theorem vp_ne_nil {nc : NetworkCore} {s e : Nat} {p : List Nat}
    (h : ValidPath nc s e p) : p ≠ [] := by
  cases h <;> simp

theorem vp_head {nc : NetworkCore} {s e : Nat} {p : List Nat}
    (h : ValidPath nc s e p) : p.head? = some s := by
  cases h <;> rfl

theorem vp_snoc {nc : NetworkCore} {s u v : Nat} {p : List Nat}
    (h : ValidPath nc s u p) (hl : Linked nc u v) : ValidPath nc s v (p ++ [v]) := by
  induction h with
  | single a => exact ValidPath.cons a v v [v] hl (ValidPath.single v)
  | cons a b e q hab hq ih => exact ValidPath.cons a b v (q ++ [v]) hab (ih hl)

theorem pathCost_cons_of_head {nc : NetworkCore} {p : List Nat} {a b : Nat}
    (hh : p.head? = some b) :
    pathCost nc (a :: p) = ewAdd (get_effective_weight nc a b) (pathCost nc p) := by
  cases p with
  | nil => simp at hh
  | cons b' rest =>
    simp only [List.head?] at hh
    cases hh
    rfl

theorem head_append_of_ne_nil {p : List Nat} {b : Nat} (q : List Nat)
    (hh : p.head? = some b) : (p ++ q).head? = some b := by
  cases p with
  | nil => simp at hh
  | cons x rest => simpa using hh

theorem vp_cost_snoc {nc : NetworkCore} {s u : Nat} {p : List Nat} (v : Nat)
    (h : ValidPath nc s u p) :
    pathCost nc (p ++ [v]) = ewAdd (pathCost nc p) (get_effective_weight nc u v) := by
  induction h with
  | single a =>
    show pathCost nc [a, v] = _
    simp [pathCost, ewAdd_zero_left, ewAdd_zero_right]
  | cons a b e q hab hq ih =>
    have hhq : q.head? = some b := vp_head hq
    have h1 : ((a :: q) ++ [v] : List Nat) = a :: (q ++ [v]) := by simp
    rw [h1, pathCost_cons_of_head (head_append_of_ne_nil [v] hhq), ih,
      ← ewAdd_assoc, ← pathCost_cons_of_head hhq]

theorem linked_of_connBase {nc : NetworkCore} {a b : Nat} {r : Router}
    (ha : alookup nc.routers a = some r) {w : ℚ}
    (hw : alookup r.connections b = some w) : Linked nc a b := by
  simp [Linked, connBase, ha, hw]

theorem linked_dest {nc : NetworkCore} {a b : Nat} (h : Linked nc a b) :
    ∃ r w, alookup nc.routers a = some r ∧ alookup r.connections b = some w := by
  simp only [Linked, connBase] at h
  cases ha : alookup nc.routers a with
  | none => simp only [ha] at h; simp at h
  | some r =>
    simp only [ha] at h
    cases hw : alookup r.connections b with
    | none => simp only [hw] at h; simp at h
    | some w => exact ⟨r, w, rfl, hw⟩

theorem wf_neighbor {nc : NetworkCore} (hwf : WF nc) {u : Nat} {c : Nat × ℚ}
    (hc : c ∈ neighborsOf nc u) : (alookup nc.routers c.1).isSome := by
  unfold neighborsOf at hc
  cases hu : alookup nc.routers u with
  | none => rw [hu] at hc; simp at hc
  | some r =>
    rw [hu] at hc
    exact hwf (u, r) (alookup_mem hu) c hc

theorem linked_of_neighbor {nc : NetworkCore} {u : Nat} {c : Nat × ℚ}
    (hc : c ∈ neighborsOf nc u) : Linked nc u c.1 := by
  unfold neighborsOf at hc
  cases hu : alookup nc.routers u with
  | none => rw [hu] at hc; simp at hc
  | some r =>
    rw [hu] at hc
    simp only [Linked, connBase, hu]
    exact alookup_isSome_of_mem hc

theorem eff_some_of_linked {nc : NetworkCore} (hwf : WF nc) {a b : Nat}
    (h : Linked nc a b) : ∃ q, get_effective_weight nc a b = some q := by
  obtain ⟨r, w, ha, hw⟩ := linked_dest h
  have hbr : (alookup nc.routers b).isSome :=
    hwf (a, r) (alookup_mem ha) (b, w) (alookup_mem hw)
  obtain ⟨rb, hb⟩ := Option.isSome_iff_exists.mp hbr
  exact ⟨w * r.congestion * rb.congestion, by simp [get_effective_weight, ha, hb, hw]⟩

theorem vp_cost_finite {nc : NetworkCore} (hwf : WF nc) {s e : Nat} {p : List Nat}
    (h : ValidPath nc s e p) : ∃ q, pathCost nc p = some q := by
  induction h with
  | single a => exact ⟨0, rfl⟩
  | cons a b e q hab hq ih =>
    obtain ⟨w, hw⟩ := eff_some_of_linked hwf hab
    obtain ⟨cq, hcq⟩ := ih
    exact ⟨w + cq, by rw [pathCost_cons_of_head (vp_head hq), hw, hcq]; simp [ewAdd]⟩

/-! ## Predecessor chains and the walk-back loop -/

theorem walk_of_chain {prev : Nat → Option Nat} {v : Nat} {p : List Nat}
    (h : ChainP prev v p) : ∀ fuel, p.length ≤ fuel →
    walkPrevious prev fuel v = some p.reverse := by
  induction h with
  | base v hv =>
    intro fuel hf
    cases fuel with
    | zero => simp at hf
    | succ f => simp [walkPrevious, hv]
  | step u v q hv hq ih =>
    intro fuel hf
    cases fuel with
    | zero => simp at hf
    | succ f =>
      have hlen : q.length ≤ f := by simp at hf; omega
      simp [walkPrevious, hv, ih f hlen]

theorem chain_congr {prev prev' : Nat → Option Nat} {v : Nat} {p : List Nat}
    (h : ChainP prev v p) (hagree : ∀ x ∈ p, prev' x = prev x) : ChainP prev' v p := by
  induction h with
  | base v hv => exact ChainP.base v ((hagree v (by simp)).trans hv)
  | step u v q hv hq ih =>
    refine ChainP.step u v q ((hagree v (by simp)).trans hv) (ih fun x hx => ?_)
    exact hagree x (by simp [hx])

theorem chain_length_le {p : List Nat} {rs : List (Nat × Router)}
    (hnd : p.Nodup) (hmem : ∀ x ∈ p, (alookup rs x).isSome) :
    p.length ≤ rs.length := by
  have hsub : ∀ x ∈ p, x ∈ rs.map Prod.fst := by
    intro x hx
    obtain ⟨r, hr⟩ := Option.isSome_iff_exists.mp (hmem x hx)
    exact List.mem_map.mpr ⟨(x, r), alookup_mem hr, rfl⟩
  calc p.length = p.toFinset.card := (List.toFinset_card_of_nodup hnd).symm
    _ ≤ (rs.map Prod.fst).toFinset.card := by
        apply Finset.card_le_card
        intro x hx
        exact List.mem_toFinset.mpr (hsub x (List.mem_toFinset.mp hx))
    _ ≤ (rs.map Prod.fst).length := List.toFinset_card_le _
    _ = rs.length := List.length_map _ _

/-! ## The crossing lemma and the settling bound -/

section SearchCorrectness

variable {nc : NetworkCore} {s ed : Nat} {pot : Nat → ℚ}

theorem potTelescope (hcons : Consistent nc pot) {b v : Nat} {q : List Nat}
    (hq : ValidPath nc b v q) :
    ewLe (some (pot b)) (ewAdd (pathCost nc q) (some (pot v))) := by
  induction hq with
  | single a => simp [pathCost, ewAdd, ewLe]
  | cons a b v p hab hp ih =>
    have h1 : ewLe (some (pot a))
        (ewAdd (get_effective_weight nc a b) (some (pot b))) := hcons a b hab
    have h2 : ewLe (ewAdd (get_effective_weight nc a b) (some (pot b)))
        (ewAdd (get_effective_weight nc a b) (ewAdd (pathCost nc p) (some (pot v)))) :=
      ewLe_add_left _ ih
    have h3 : ewAdd (get_effective_weight nc a b) (ewAdd (pathCost nc p) (some (pot v)))
        = ewAdd (pathCost nc (a :: p)) (some (pot v)) := by
      rw [pathCost_cons_of_head (vp_head hp), ewAdd_assoc]
    exact ewLe_trans h1 (h3 ▸ h2)

theorem dist_ne_none_of_le_some {a : EW} {x : ℚ} (h : ewLe a (some x)) : a ≠ none := by
  obtain ⟨y, hy⟩ := ewLe_some_dest h
  simp [hy]

/-- Crossing lemma, inner form: a valid path from a settled vertex `a` to
an unsettled vertex `v` is witnessed on the heap by an entry whose key is
at most `dist a + cost + pot v`. -/
theorem coverAux {st : GState} (hwf : WF nc) (hcons : Consistent nc pot)
    (hinv : GInv nc s ed pot st)
    {a v : Nat} {q : List Nat} (hq : ValidPath nc a v q) :
    a ∈ st.visited → v ∉ st.visited →
    ∃ kv ∈ st.pq, ewLe kv.1 (ewAdd (ewAdd (st.dist a) (pathCost nc q)) (some (pot v))) := by
  induction hq with
  | single a => intro ha hv; exact absurd ha hv
  | cons a b v p hab hp ih =>
    intro ha hv
    by_cases hb : b ∈ st.visited
    · obtain ⟨kv, hkp, hk⟩ := ih hb hv
      refine ⟨kv, hkp, ewLe_trans hk ?_⟩
      have hdb : ewLe (st.dist b) (ewAdd (st.dist a) (get_effective_weight nc a b)) := by
        obtain ⟨pa, _, hpa, hca, _, _, _⟩ := hinv.chains a (hinv.settledFin a ha)
        have hsnoc : ValidPath nc s b (pa ++ [b]) := vp_snoc hpa hab
        have hcost : pathCost nc (pa ++ [b])
            = ewAdd (pathCost nc pa) (get_effective_weight nc a b) := vp_cost_snoc b hpa
        have h1 := hinv.settledOpt b hb _ hsnoc
        rw [hcost] at h1
        exact ewLe_trans h1 (ewLe_add_right _ hca)
      have h2 : ewLe (ewAdd (st.dist b) (pathCost nc p))
          (ewAdd (ewAdd (st.dist a) (get_effective_weight nc a b)) (pathCost nc p)) :=
        ewLe_add_right _ hdb
      have h3 : ewAdd (ewAdd (st.dist a) (get_effective_weight nc a b)) (pathCost nc p)
          = ewAdd (st.dist a) (pathCost nc (a :: p)) := by
        rw [ewAdd_assoc, ← pathCost_cons_of_head (vp_head hp)]
      exact ewLe_add_right _ (h3 ▸ h2)
    · obtain ⟨r, w, har, hw⟩ := linked_dest hab
      have hcnb : (b, w) ∈ neighborsOf nc a := by
        unfold neighborsOf
        rw [har]
        exact alookup_mem hw
      have hrel := hinv.edgeRelaxed a ha (b, w) hcnb hb
      have hda : st.dist a ≠ none := hinv.settledFin a ha
      obtain ⟨da, hda'⟩ := Option.ne_none_iff_exists'.mp hda
      obtain ⟨we, hwe⟩ := eff_some_of_linked hwf hab
      have hdb : st.dist b ≠ none := by
        rw [hda', hwe] at hrel
        have hle' : ewLe (st.dist b) (some (ratAdd da we)) := hrel
        exact dist_ne_none_of_le_some hle'
      obtain ⟨k, hkp, hk⟩ := hinv.coverage b hb hdb
      refine ⟨(k, b), hkp, ?_⟩
      have h1 : ewLe (ewAdd (st.dist b) (some (pot b)))
          (ewAdd (ewAdd (st.dist a) (get_effective_weight nc a b)) (some (pot b))) :=
        ewLe_add_right _ hrel
      have h2 : ewLe (ewAdd (ewAdd (st.dist a) (get_effective_weight nc a b)) (some (pot b)))
          (ewAdd (ewAdd (st.dist a) (get_effective_weight nc a b))
            (ewAdd (pathCost nc p) (some (pot v)))) :=
        ewLe_add_left _ (potTelescope hcons hp)
      have h3 : ewAdd (ewAdd (st.dist a) (get_effective_weight nc a b))
            (ewAdd (pathCost nc p) (some (pot v)))
          = ewAdd (ewAdd (st.dist a) (pathCost nc (a :: p))) (some (pot v)) := by
        rw [pathCost_cons_of_head (vp_head hp), ← ewAdd_assoc, ← ewAdd_assoc]
      exact ewLe_trans hk (ewLe_trans h1 (h3 ▸ h2))

/-- Crossing lemma: a valid path from the source to any unsettled vertex
is witnessed on the heap by an entry whose key is at most
`cost + pot v`. -/
theorem cover {st : GState} (hwf : WF nc) (hcons : Consistent nc pot)
    (hinv : GInv nc s ed pot st)
    {v : Nat} {q : List Nat} (hq : ValidPath nc s v q) (hv : v ∉ st.visited) :
    ∃ kv ∈ st.pq, ewLe kv.1 (ewAdd (pathCost nc q) (some (pot v))) := by
  by_cases hs : s ∈ st.visited
  · obtain ⟨kv, hkp, hk⟩ := coverAux hwf hcons hinv hq hs hv
    refine ⟨kv, hkp, ?_⟩
    rw [hinv.distS, ewAdd_zero_left] at hk
    exact hk
  · have hds : st.dist s ≠ none := by rw [hinv.distS]; simp
    obtain ⟨k, hkp, hk⟩ := hinv.coverage s hs hds
    refine ⟨(k, s), hkp, ?_⟩
    rw [hinv.distS, ewAdd_zero_left] at hk
    exact ewLe_trans hk (potTelescope hcons hq)

/-- When a fresh (unsettled) vertex is popped, its tentative distance is a
lower bound on the cost of every valid path to it from the source. -/
theorem settleBound {st : GState} (hwf : WF nc) (hcons : Consistent nc pot)
    (hinv : GInv nc s ed pot st) {kv : EW × Nat}
    (hpop : pqMin st.pq = some kv) (hfresh : kv.2 ∉ st.visited) :
    ∀ q, ValidPath nc s kv.2 q → ewLe (st.dist kv.2) (pathCost nc q) := by
  intro q hq
  obtain ⟨kv', hkp', hk'⟩ := cover hwf hcons hinv hq hfresh
  have hmin : ewLe kv.1 kv'.1 := ewLe_of_entryLeB (pqMin_le hpop kv' hkp')
  have hbound := (hinv.pqBound kv (pqMin_mem hpop)).2
  have : ewLe (ewAdd (st.dist kv.2) (some (pot kv.2)))
      (ewAdd (pathCost nc q) (some (pot kv.2))) :=
    ewLe_trans hbound (ewLe_trans hmin hk')
  exact ewLe_add_cancel this

theorem ewLe_of_not_ewLt {a b : EW} (h : ¬ ewLt a b) : ewLe b a := by
  cases a <;> cases b <;> simp_all [ewLt, ewLe] <;> omega

theorem ewLt_ne_none {a b : EW} (h : ewLt a b) : a ≠ none := by
  cases a <;> simp_all [ewLt]

/-- The three possible outcomes of one relaxation step. -/
theorem genRelax_cases (nc : NetworkCore) (pot : Nat → ℚ) (cur : Nat)
    (st : GState) (nb : Nat × ℚ) :
    (genRelax nc pot cur st nb = st ∧
      (nb.1 ∈ st.visited ∨
        ¬ ewLt (ewAdd (st.dist cur) (get_effective_weight nc cur nb.1)) (st.dist nb.1))) ∨
    (nb.1 ∉ st.visited ∧
      ewLt (ewAdd (st.dist cur) (get_effective_weight nc cur nb.1)) (st.dist nb.1) ∧
      genRelax nc pot cur st nb =
        { dist := fun v => if v = nb.1 then
              ewAdd (st.dist cur) (get_effective_weight nc cur nb.1) else st.dist v
          prev := fun v => if v = nb.1 then some cur else st.prev v
          pq := st.pq ++
            [(ewAdd (ewAdd (st.dist cur) (get_effective_weight nc cur nb.1))
                (some (pot nb.1)), nb.1)]
          visited := st.visited }) := by
  by_cases hm : nb.1 ∈ st.visited
  · exact Or.inl ⟨by simp [genRelax, hm], Or.inl hm⟩
  · by_cases hlt : ewLtB (ewAdd (st.dist cur) (get_effective_weight nc cur nb.1))
        (st.dist nb.1) = true
    · exact Or.inr ⟨hm, ewLt_of_ewLtB hlt, by simp [genRelax, hm, hlt]⟩
    · refine Or.inl ⟨by simp [genRelax, hm, hlt], Or.inr fun hc => hlt ?_⟩
      simpa [ewLtB] using hc

/-- One relaxation step preserves the midway invariant and records the
relaxed neighbor. -/
theorem midinv_relax (hwf : WF nc) (hnn : EffNonneg nc)
    {cur : Nat} {done : List (Nat × ℚ)} {st : GState} {nb : Nat × ℚ}
    (hnb : nb ∈ neighborsOf nc cur)
    (hinv : MidInv nc s ed pot cur done st) :
    MidInv nc s ed pot cur (done ++ [nb]) (genRelax nc pot cur st nb) := by
  rcases genRelax_cases nc pot cur st nb with ⟨heq, hcase⟩ | ⟨hm, hlt, heq⟩
  · rw [heq]
    refine { hinv with edgeCur := ?_ }
    intro c hc hcv
    rcases List.mem_append.mp hc with hc | hc
    · exact hinv.edgeCur c hc hcv
    · have hcnb : c = nb := by simpa using hc
      subst hcnb
      rcases hcase with hcase | hcase
      · exact absurd hcase hcv
      · exact ewLe_of_not_ewLt hcase
  · have htent_ne : ewAdd (st.dist cur) (get_effective_weight nc cur nb.1) ≠ none :=
      ewLt_ne_none hlt
    have hdcur_ne : st.dist cur ≠ none := (ewAdd_ne_none htent_ne).1
    have hnb_router : (alookup nc.routers nb.1).isSome := wf_neighbor hwf hnb
    have hlink : Linked nc cur nb.1 := linked_of_neighbor hnb
    have hcur_ne_nb : cur ≠ nb.1 := fun h => hm (h ▸ hinv.curMem)
    have htent_nonneg : ewLe (some 0)
        (ewAdd (st.dist cur) (get_effective_weight nc cur nb.1)) :=
      ewAdd_nonneg (hinv.distNonneg cur) (hnn cur nb.1)
    have hs_ne_nb : s ≠ nb.1 := by
      intro h
      subst h
      rw [hinv.distS] at hlt
      exact not_ewLt_of_ewLe htent_nonneg hlt
    rw [heq]
    constructor
    case distS => simpa [hs_ne_nb] using hinv.distS
    case distNonneg =>
      intro v
      by_cases hv : v = nb.1 <;> simp only [hv, if_pos, if_neg, if_true]
      · simpa using htent_nonneg
      · simpa [hv] using hinv.distNonneg v
    case chains =>
      intro v hv
      by_cases hveq : v = nb.1
      · subst hveq
        obtain ⟨pc, hchain, hvalid, hcost, hnd, hrouters, hsettled⟩ :=
          hinv.chains cur hdcur_ne
        have hpc_vis : ∀ x ∈ pc, x ∈ st.visited := by
          intro x hx
          by_cases hxc : x = cur
          · exact hxc ▸ hinv.curMem
          · exact hsettled x hx hxc
        have hnb_notin : nb.1 ∉ pc := fun hin => hm (hpc_vis _ hin)
        refine ⟨pc ++ [nb.1], ?_, ?_, ?_, ?_, ?_, ?_⟩
        · refine ChainP.step cur nb.1 pc (by simp) ?_
          refine chain_congr hchain fun x hx => ?_
          have : x ≠ nb.1 := fun h => hnb_notin (h ▸ hx)
          simp [this]
        · exact vp_snoc hvalid hlink
        · rw [vp_cost_snoc nb.1 hvalid]
          simp only [if_pos]
          exact ewLe_add_right _ hcost
        · refine List.nodup_append.mpr ⟨hnd, List.nodup_singleton _, ?_⟩
          intro x hx hx'
          have : x = nb.1 := by simpa using hx'
          exact hnb_notin (this ▸ hx)
        · intro x hx
          rcases List.mem_append.mp hx with hx | hx
          · exact hrouters x hx
          · have : x = nb.1 := by simpa using hx
            exact this ▸ hnb_router
        · intro x hx hxne
          rcases List.mem_append.mp hx with hx | hx
          · exact hpc_vis x hx
          · exact absurd (by simpa using hx) hxne
      · simp only [if_neg hveq] at hv
        obtain ⟨p, hchain, hvalid, hcost, hnd, hrouters, hsettled⟩ := hinv.chains v hv
        refine ⟨p, ?_, hvalid, by simpa [hveq] using hcost, hnd, hrouters, hsettled⟩
        refine chain_congr hchain fun x hx => ?_
        have hxv : x ≠ nb.1 := by
          intro h
          by_cases hxx : x = v
          · exact hveq (hxx.symm.trans h)
          · exact hm (h ▸ hsettled x hx hxx)
        simp [hxv]
    case settledOpt =>
      intro v hvmem q hq
      have hvne : v ≠ nb.1 := fun h => hm (h ▸ hvmem)
      simpa [hvne] using hinv.settledOpt v hvmem q hq
    case settledFin =>
      intro v hvmem
      have hvne : v ≠ nb.1 := fun h => hm (h ▸ hvmem)
      simpa [hvne] using hinv.settledFin v hvmem
    case edgeOld =>
      intro u humem hune c hc hcv
      have hu_ne : u ≠ nb.1 := fun h => hm (h ▸ humem)
      simp only [if_neg hu_ne]
      by_cases hcnb : c.1 = nb.1
      · rw [if_pos hcnb]
        have hcv0 : c.1 ∉ st.visited := by rw [hcnb]; exact hm
        have hold := hinv.edgeOld u humem hune c hc hcv0
        have hstep : ewLe (ewAdd (st.dist cur) (get_effective_weight nc cur nb.1))
            (st.dist c.1) := by
          rw [hcnb]
          exact ewLe_of_ewLt hlt
        exact ewLe_trans hstep hold
      · rw [if_neg hcnb]
        exact hinv.edgeOld u humem hune c hc hcv
    case edgeCur =>
      intro c hc hcv
      have hcur_eq : (if cur = nb.1 then
          ewAdd (st.dist cur) (get_effective_weight nc cur nb.1) else st.dist cur)
          = st.dist cur := by simp [hcur_ne_nb]
      simp only [hcur_eq]
      rcases List.mem_append.mp hc with hc | hc
      · by_cases hcnb : c.1 = nb.1
        · rw [if_pos hcnb, hcnb]
          exact ewLe_refl _
        · rw [if_neg hcnb]
          exact hinv.edgeCur c hc hcv
      · have hceq : c = nb := by simpa using hc
        subst hceq
        rw [if_pos rfl]
        exact ewLe_refl _
    case pqBound =>
      intro kv hkv
      rcases List.mem_append.mp hkv with hkv | hkv
      · obtain ⟨h1, h2⟩ := hinv.pqBound kv hkv
        by_cases hknb : kv.2 = nb.1
        · simp only [hknb, if_pos]
          exact ⟨htent_ne, ewLe_trans
            (ewLe_add_right _ (ewLe_of_ewLt (hknb ▸ hlt))) (hknb ▸ h2)⟩
        · simp only [if_neg hknb]
          exact ⟨h1, h2⟩
      · have : kv = (ewAdd (ewAdd (st.dist cur) (get_effective_weight nc cur nb.1))
            (some (pot nb.1)), nb.1) := by simpa using hkv
        subst this
        simp only [if_pos]
        exact ⟨htent_ne, ewLe_refl _⟩
    case coverage =>
      intro v hv hvd
      by_cases hveq : v = nb.1
      · subst hveq
        refine ⟨ewAdd (ewAdd (st.dist cur) (get_effective_weight nc cur nb.1))
            (some (pot nb.1)), by simp, ?_⟩
        simp [ewLe_refl]
      · simp only [if_neg hveq] at hvd
        obtain ⟨k, hkp, hk⟩ := hinv.coverage v hv hvd
        exact ⟨k, List.mem_append_left _ hkp, by simpa [hveq] using hk⟩
    case pqRouters =>
      intro kv hkv
      rcases List.mem_append.mp hkv with hkv | hkv
      · exact hinv.pqRouters kv hkv
      · have hkv' : kv = (ewAdd (ewAdd (st.dist cur) (get_effective_weight nc cur nb.1))
            (some (pot nb.1)), nb.1) := by simpa using hkv
        rw [hkv']
        exact hnb_router
    case visitedRouters => exact hinv.visitedRouters
    case edFree => exact hinv.edFree
    case curMem => exact hinv.curMem

/-- Relaxing a whole neighbor list preserves the midway invariant. -/
theorem midinv_fold (hwf : WF nc) (hnn : EffNonneg nc) {cur : Nat} :
    ∀ (l done : List (Nat × ℚ)) (st : GState),
    (∀ c ∈ l, c ∈ neighborsOf nc cur) → MidInv nc s ed pot cur done st →
    MidInv nc s ed pot cur (done ++ l) (l.foldl (genRelax nc pot cur) st) := by
  intro l
  induction l with
  | nil => intro done st _ hinv; simpa using hinv
  | cons c t ih =>
    intro done st hsub hinv
    have hstep := midinv_relax hwf hnn (hsub c (by simp)) hinv
    have := ih (done ++ [c]) (genRelax nc pot cur st c)
      (fun x hx => hsub x (by simp [hx])) hstep
    simpa [List.append_assoc] using this

theorem pair_ne_of_snd_ne {a b : EW × Nat} (h : a.2 ≠ b.2) : a ≠ b :=
  fun e => h (congrArg Prod.snd e)

/-- Popping an already-visited entry preserves the invariant. -/
theorem ginv_erase {st : GState} (hinv : GInv nc s ed pot st) {kv : EW × Nat}
    (hstale : kv.2 ∈ st.visited) :
    GInv nc s ed pot { st with pq := st.pq.erase kv } := by
  refine { hinv with pqBound := ?_, coverage := ?_, pqRouters := ?_ }
  · intro kv' hkv'
    exact hinv.pqBound kv' (List.erase_subset _ _ hkv')
  · intro v hv hvd
    obtain ⟨k, hkp, hk⟩ := hinv.coverage v hv hvd
    refine ⟨k, ?_, hk⟩
    have hne : ((k, v) : EW × Nat) ≠ kv := pair_ne_of_snd_ne (by
      simp only []
      intro h
      exact hv (h ▸ hstale))
    exact (List.mem_erase_of_ne hne).mpr hkp
  · intro kv' hkv'
    exact hinv.pqRouters kv' (List.erase_subset _ _ hkv')

/-- Settling a freshly popped minimal entry: the new vertex is optimal and
the midway invariant holds with no neighbor relaxed yet. -/
theorem ginv_settle {st : GState} (hwf : WF nc) (hcons : Consistent nc pot)
    (hinv : GInv nc s ed pot st) {kv : EW × Nat}
    (hpop : pqMin st.pq = some kv) (hfresh : kv.2 ∉ st.visited) (hned : kv.2 ≠ ed) :
    MidInv nc s ed pot kv.2 []
      { st with pq := st.pq.erase kv, visited := kv.2 :: st.visited } := by
  have hopt := settleBound hwf hcons hinv hpop hfresh
  have hfin := (hinv.pqBound kv (pqMin_mem hpop)).1
  constructor
  case distS => exact hinv.distS
  case distNonneg => exact hinv.distNonneg
  case chains =>
    intro v hv
    obtain ⟨p, hchain, hvalid, hcost, hnd, hrouters, hsettled⟩ := hinv.chains v hv
    exact ⟨p, hchain, hvalid, hcost, hnd, hrouters,
      fun x hx hxne => List.mem_cons_of_mem _ (hsettled x hx hxne)⟩
  case settledOpt =>
    intro v hvmem q hq
    rcases List.mem_cons.mp hvmem with rfl | hvmem
    · exact hopt q hq
    · exact hinv.settledOpt v hvmem q hq
  case settledFin =>
    intro v hvmem
    rcases List.mem_cons.mp hvmem with rfl | hvmem
    · exact hfin
    · exact hinv.settledFin v hvmem
  case edgeOld =>
    intro u humem hune c hc hcv
    have humem' : u ∈ st.visited := by
      rcases List.mem_cons.mp humem with h | h
      · exact absurd h hune
      · exact h
    exact hinv.edgeRelaxed u humem' c hc fun h => hcv (List.mem_cons_of_mem _ h)
  case edgeCur => intro c hc; simp at hc
  case pqBound =>
    intro kv' hkv'
    exact hinv.pqBound kv' (List.erase_subset _ _ hkv')
  case coverage =>
    intro v hv hvd
    have hvne : v ≠ kv.2 := fun h => hv (h ▸ List.mem_cons_self _ _)
    have hv' : v ∉ st.visited := fun h => hv (List.mem_cons_of_mem _ h)
    obtain ⟨k, hkp, hk⟩ := hinv.coverage v hv' hvd
    refine ⟨k, (List.mem_erase_of_ne (pair_ne_of_snd_ne ?_)).mpr hkp, hk⟩
    simpa using hvne
  case pqRouters =>
    intro kv' hkv'
    exact hinv.pqRouters kv' (List.erase_subset _ _ hkv')
  case visitedRouters =>
    intro v hvmem
    rcases List.mem_cons.mp hvmem with rfl | hvmem
    · exact hinv.pqRouters kv (pqMin_mem hpop)
    · exact hinv.visitedRouters v hvmem
  case edFree =>
    intro h
    rcases List.mem_cons.mp h with h | h
    · exact hned h.symm
    · exact hinv.edFree h
  case curMem => exact List.mem_cons_self _ _

/-- Once every neighbor of the settled vertex has been relaxed, the full
invariant holds again. -/
theorem midinv_to_ginv {cur : Nat} {st : GState}
    (hinv : MidInv nc s ed pot cur (neighborsOf nc cur) st) : GInv nc s ed pot st := by
  refine ⟨hinv.distS, hinv.distNonneg, hinv.chains, hinv.settledOpt, hinv.settledFin,
    ?_, hinv.pqBound, hinv.coverage, hinv.pqRouters, hinv.visitedRouters, hinv.edFree⟩
  intro u humem c hc hcv
  by_cases hu : u = cur
  · subst hu
    exact hinv.edgeCur c hc hcv
  · exact hinv.edgeOld u humem hu c hc hcv

/-! ## Fuel accounting -/

theorem genRelax_visited (nc : NetworkCore) (pot : Nat → ℚ) (cur : Nat)
    (st : GState) (nb : Nat × ℚ) : (genRelax nc pot cur st nb).visited = st.visited := by
  rcases genRelax_cases nc pot cur st nb with ⟨heq, _⟩ | ⟨_, _, heq⟩ <;> rw [heq]

theorem genRelax_pq_len (nc : NetworkCore) (pot : Nat → ℚ) (cur : Nat)
    (st : GState) (nb : Nat × ℚ) :
    (genRelax nc pot cur st nb).pq.length ≤ st.pq.length + 1 := by
  rcases genRelax_cases nc pot cur st nb with ⟨heq, _⟩ | ⟨_, _, heq⟩ <;> rw [heq] <;> simp

theorem foldRelax_visited (nc : NetworkCore) (pot : Nat → ℚ) (cur : Nat) :
    ∀ (l : List (Nat × ℚ)) (st : GState),
    ((l.foldl (genRelax nc pot cur) st)).visited = st.visited := by
  intro l
  induction l with
  | nil => intro st; rfl
  | cons c t ih => intro st; rw [List.foldl_cons, ih, genRelax_visited]

theorem foldRelax_pq_len (nc : NetworkCore) (pot : Nat → ℚ) (cur : Nat) :
    ∀ (l : List (Nat × ℚ)) (st : GState),
    ((l.foldl (genRelax nc pot cur) st)).pq.length ≤ st.pq.length + l.length := by
  intro l
  induction l with
  | nil => intro st; simp
  | cons c t ih =>
    intro st
    calc ((t.foldl (genRelax nc pot cur) (genRelax nc pot cur st c))).pq.length
        ≤ (genRelax nc pot cur st c).pq.length + t.length := ih _
      _ ≤ (st.pq.length + 1) + t.length := by
          have := genRelax_pq_len nc pot cur st c
          omega
      _ = st.pq.length + (c :: t).length := by simp; omega

theorem restDeg_cons_eq (p : Nat × Router) (rest : List (Nat × Router))
    (visited : List Nat) :
    restDeg (p :: rest) visited =
      (if p.1 ∉ visited then p.2.connections.length else 0) + restDeg rest visited := by
  by_cases h : p.1 ∈ visited <;> simp [restDeg, List.filter_cons, h]

theorem restDeg_mono (rs : List (Nat × Router)) (visited visited' : List Nat)
    (hsub : ∀ x ∈ visited, x ∈ visited') :
    restDeg rs visited' ≤ restDeg rs visited := by
  induction rs with
  | nil => simp [restDeg]
  | cons p rest ih =>
    rw [restDeg_cons_eq, restDeg_cons_eq]
    by_cases h' : p.1 ∈ visited'
    · by_cases h : p.1 ∈ visited <;> simp [h, h'] <;> omega
    · have h : p.1 ∉ visited := fun hc => h' (hsub _ hc)
      simp only [h, h', not_false_iff, if_pos]
      omega

theorem restDeg_step (rs : List (Nat × Router)) (visited : List Nat) (cur : Nat)
    (hcur : cur ∉ visited) :
    restDeg rs (cur :: visited) +
      (match alookup rs cur with
        | some r => r.connections.length
        | none => 0) ≤ restDeg rs visited := by
  induction rs with
  | nil => simp [restDeg, alookup]
  | cons p rest ih =>
    rw [restDeg_cons_eq, restDeg_cons_eq]
    by_cases hp : p.1 = cur
    · have h1 : ¬ (p.1 ∉ cur :: visited) := by simp [hp]
      have h2 : p.1 ∉ visited := hp ▸ hcur
      have hal : alookup (p :: rest) cur = some p.2 := by simp [alookup, hp]
      rw [if_neg h1, if_pos h2]
      simp only [hal]
      have hmono := restDeg_mono rest visited (cur :: visited)
        (fun x hx => List.mem_cons_of_mem _ hx)
      omega
    · have hal : alookup (p :: rest) cur = alookup rest cur := by simp [alookup, hp]
      have h1 : (p.1 ∉ cur :: visited) ↔ (p.1 ∉ visited) := by
        simp [List.mem_cons, hp]
      simp only [hal]
      by_cases h : p.1 ∉ visited
      · rw [if_pos (h1.mpr h), if_pos h]
        omega
      · rw [if_neg (fun hc => h (h1.mp hc)), if_neg h]
        omega

/-- Master theorem for the generalized search loop: with enough fuel the
loop terminates in a state satisfying the reconstruction invariant, in
which the target's tentative distance is `inf` exactly when the target is
unreachable and otherwise bounds every path cost from below. -/
theorem genLoop_master (hwf : WF nc) (hnn : EffNonneg nc) (hcons : Consistent nc pot) :
    ∀ (fuel : Nat) (st : GState), GInv nc s ed pot st →
    st.pq.length + restDeg nc.routers st.visited < fuel →
    ∃ st', genLoop nc pot ed fuel st = some st' ∧ GFinal nc s ed st' := by
  intro fuel
  induction fuel with
  | zero => intro st _ h; omega
  | succ f ih =>
    intro st hinv hfuel
    cases hpop : pqMin st.pq with
    | none =>
      refine ⟨st, by simp [genLoop, hpop], hinv.chains, ?_, ?_⟩
      · intro _ q hq
        obtain ⟨kv, hkp, _⟩ := cover hwf hcons hinv hq hinv.edFree
        rw [pqMin_none hpop] at hkp
        simp at hkp
      · intro hd q hq
        obtain ⟨k, hkp, _⟩ := hinv.coverage ed hinv.edFree hd
        rw [pqMin_none hpop] at hkp
        simp at hkp
    | some kv =>
      have hkv_mem := pqMin_mem hpop
      have hpq_pos : 0 < st.pq.length :=
        List.length_pos.mpr (List.ne_nil_of_mem hkv_mem)
      have hlen_erase : (st.pq.erase kv).length = st.pq.length - 1 :=
        List.length_erase_of_mem hkv_mem
      by_cases hed : kv.2 = ed
      · subst hed
        have hfresh : kv.2 ∉ st.visited := hinv.edFree
        refine ⟨{ st with pq := st.pq.erase kv }, by simp [genLoop, hpop], hinv.chains, ?_, ?_⟩
        · intro hd q hq
          exact absurd hd (hinv.pqBound kv hkv_mem).1
        · intro hd q hq
          exact settleBound hwf hcons hinv hpop hfresh q hq
      · by_cases hvis : kv.2 ∈ st.visited
        · have hinv' := ginv_erase hinv hvis
          have hmeas : ({ st with pq := st.pq.erase kv } : GState).pq.length +
              restDeg nc.routers ({ st with pq := st.pq.erase kv } : GState).visited < f := by
            simp only [hlen_erase]
            omega
          obtain ⟨st', hrun, hfin⟩ := ih _ hinv' hmeas
          exact ⟨st', by simp [genLoop, hpop, hed, hvis, hrun], hfin⟩
        · have hmid0 := ginv_settle hwf hcons hinv hpop hvis hed
          have hmid := midinv_fold hwf hnn (neighborsOf nc kv.2) [] _
            (fun c hc => hc) hmid0
          have hginv2 := midinv_to_ginv (by simpa using hmid)
          have hvis2 : ((neighborsOf nc kv.2).foldl (genRelax nc pot kv.2)
              { st with pq := st.pq.erase kv, visited := kv.2 :: st.visited }).visited
              = kv.2 :: st.visited := foldRelax_visited nc pot kv.2 _ _
          have hlen2 : ((neighborsOf nc kv.2).foldl (genRelax nc pot kv.2)
              { st with pq := st.pq.erase kv, visited := kv.2 :: st.visited }).pq.length
              ≤ (st.pq.length - 1) + (neighborsOf nc kv.2).length := by
            have := foldRelax_pq_len nc pot kv.2 (neighborsOf nc kv.2)
              { st with pq := st.pq.erase kv, visited := kv.2 :: st.visited }
            simp only [hlen_erase] at this
            omega
          have hdeg : (neighborsOf nc kv.2).length =
              (match alookup nc.routers kv.2 with
                | some r => r.connections.length
                | none => 0) := by
            unfold neighborsOf
            cases alookup nc.routers kv.2 <;> rfl
          have hstep := restDeg_step nc.routers st.visited kv.2 hvis
          have hmeas2 : ((neighborsOf nc kv.2).foldl (genRelax nc pot kv.2)
              { st with pq := st.pq.erase kv, visited := kv.2 :: st.visited }).pq.length +
              restDeg nc.routers ((neighborsOf nc kv.2).foldl (genRelax nc pot kv.2)
                { st with pq := st.pq.erase kv, visited := kv.2 :: st.visited }).visited
              < f := by
            rw [hvis2]
            rw [hdeg] at hlen2
            omega
          obtain ⟨st', hrun, hfin⟩ := ih _ hginv2 hmeas2
          exact ⟨st', by simp [genLoop, hpop, hed, hvis, hrun], hfin⟩

end SearchCorrectness

/-! ## `find_path_astar` simulates the generalized loop -/

theorem astar_relax_proj (nc : NetworkCore) (ed cur : Nat)
    (st : AStarState) (nb : Nat × ℚ) :
    a2g (astarRelax nc ed cur st nb) = genRelax nc (potTo nc ed) cur (a2g st) nb := by
  by_cases hm : nb.1 ∈ st.closedSet
  · simp [astarRelax, genRelax, a2g, hm]
  · by_cases hlt : ewLtB (ewAdd (st.gScore cur) (get_effective_weight nc cur nb.1))
        (st.gScore nb.1) = true
    · simp [astarRelax, genRelax, a2g, hm, hlt, potTo]
    · simp [astarRelax, genRelax, a2g, hm, hlt]

theorem astar_fold_proj (nc : NetworkCore) (ed cur : Nat) :
    ∀ (l : List (Nat × ℚ)) (st : AStarState),
    a2g (l.foldl (astarRelax nc ed cur) st) =
      l.foldl (genRelax nc (potTo nc ed) cur) (a2g st) := by
  intro l
  induction l with
  | nil => intro st; rfl
  | cons c t ih =>
    intro st
    rw [List.foldl_cons, List.foldl_cons, ih, astar_relax_proj]

theorem astar_loop_proj (nc : NetworkCore) (ed : Nat) :
    ∀ (fuel : Nat) (st : AStarState),
    (astarLoop nc ed fuel st).map a2g = genLoop nc (potTo nc ed) ed fuel (a2g st) := by
  intro fuel
  induction fuel with
  | zero => intro st; rfl
  | succ f ih =>
    intro st
    show (astarLoop nc ed (f + 1) st).map a2g = genLoop nc (potTo nc ed) ed (f + 1) (a2g st)
    cases hpop : pqMin st.openSet with
    | none =>
      simp only [astarLoop, genLoop, a2g, hpop]
      rfl
    | some kv =>
      simp only [astarLoop, genLoop, a2g, hpop]
      by_cases hed : kv.2 = ed
      · rw [if_pos hed, if_pos hed]
        rfl
      · rw [if_neg hed, if_neg hed]
        by_cases hvis : kv.2 ∈ st.closedSet
        · rw [if_pos hvis, if_pos hvis]
          exact ih _
        · rw [if_neg hvis, if_neg hvis]
          rw [ih]
          congr 1
          rw [astar_fold_proj]
          rfl

/-! ## `find_shortest_path` simulates the generalized loop -/

/-- The three possible outcomes of one Dijkstra relaxation step. -/
theorem dijkstraRelax_cases (nc : NetworkCore) (cur : Nat) (cd : EW)
    (st : DijkstraState) (nb : Nat × ℚ) :
    (dijkstraRelax nc cur cd st nb = st ∧
      (nb.1 ∈ st.visited ∨
        ¬ ewLt (ewAdd cd (get_effective_weight nc cur nb.1)) (st.distances nb.1))) ∨
    (nb.1 ∉ st.visited ∧
      ewLt (ewAdd cd (get_effective_weight nc cur nb.1)) (st.distances nb.1) ∧
      dijkstraRelax nc cur cd st nb =
        { distances := fun v => if v = nb.1 then
              ewAdd cd (get_effective_weight nc cur nb.1) else st.distances v
          previous := fun v => if v = nb.1 then some cur else st.previous v
          pq := st.pq ++ [(ewAdd cd (get_effective_weight nc cur nb.1), nb.1)]
          visited := st.visited }) := by
  by_cases hm : nb.1 ∈ st.visited
  · exact Or.inl ⟨by simp [dijkstraRelax, hm], Or.inl hm⟩
  · by_cases hlt : ewLtB (ewAdd cd (get_effective_weight nc cur nb.1))
        (st.distances nb.1) = true
    · exact Or.inr ⟨hm, ewLt_of_ewLtB hlt, by simp [dijkstraRelax, hm, hlt]⟩
    · refine Or.inl ⟨by simp [dijkstraRelax, hm, hlt], Or.inr fun hc => hlt ?_⟩
      simpa [ewLtB] using hc

/-- A Dijkstra relaxation step projects to the zero-potential generalized
relaxation, provided the popped key equals the current vertex's tentative
distance and the current vertex is settled. -/
theorem dijkstra_relax_proj (nc : NetworkCore) (cur : Nat) (cd : EW)
    (st : DijkstraState) (nb : Nat × ℚ)
    (hcur : cur ∈ st.visited) (hkey : cd = st.distances cur) :
    d2g (dijkstraRelax nc cur cd st nb) = genRelax nc (fun _ => 0) cur (d2g st) nb ∧
    (dijkstraRelax nc cur cd st nb).distances cur = st.distances cur ∧
    (dijkstraRelax nc cur cd st nb).visited = st.visited := by
  by_cases hm : nb.1 ∈ st.visited
  · refine ⟨?_, by simp [dijkstraRelax, hm], by simp [dijkstraRelax, hm]⟩
    simp [dijkstraRelax, genRelax, d2g, hm]
  · have hne : cur ≠ nb.1 := fun h => hm (h ▸ hcur)
    by_cases hlt : ewLtB (ewAdd cd (get_effective_weight nc cur nb.1))
        (st.distances nb.1) = true
    · have hlt' : ewLtB (ewAdd (st.distances cur) (get_effective_weight nc cur nb.1))
          (st.distances nb.1) = true := hkey ▸ hlt
      refine ⟨?_, ?_, ?_⟩
      · simp only [dijkstraRelax, genRelax, d2g, hm, hlt, hlt', if_neg, if_pos,
          not_false_iff, ite_true, ite_false]
        rw [← hkey, ewAdd_zero_right]
      · rcases dijkstraRelax_cases nc cur cd st nb with ⟨heq2, _⟩ | ⟨_, _, heq2⟩
        · rw [heq2]
        · rw [heq2]
          simp only []
          rw [if_neg hne]
      · simp [dijkstraRelax, hm, hlt]
    · have hlt' : ¬ ewLtB (ewAdd (st.distances cur) (get_effective_weight nc cur nb.1))
          (st.distances nb.1) = true := hkey ▸ hlt
      refine ⟨?_, by simp [dijkstraRelax, hm, hlt], by simp [dijkstraRelax, hm, hlt]⟩
      simp [dijkstraRelax, genRelax, d2g, hm, hlt, hlt']

theorem dijkstra_fold_proj (nc : NetworkCore) (cur : Nat) (cd : EW) :
    ∀ (l : List (Nat × ℚ)) (st : DijkstraState),
    cur ∈ st.visited → cd = st.distances cur →
    d2g (l.foldl (dijkstraRelax nc cur cd) st) =
      l.foldl (genRelax nc (fun _ => 0) cur) (d2g st) ∧
    (l.foldl (dijkstraRelax nc cur cd) st).visited = st.visited := by
  intro l
  induction l with
  | nil => intro st _ _; exact ⟨rfl, rfl⟩
  | cons c t ih =>
    intro st hcur hkey
    obtain ⟨hproj, hdist, hvis⟩ := dijkstra_relax_proj nc cur cd st c hcur hkey
    obtain ⟨hproj', hvis'⟩ := ih (dijkstraRelax nc cur cd st c)
      (hvis ▸ hcur) (hkey.trans hdist.symm)
    refine ⟨?_, by rw [List.foldl_cons, hvis', hvis]⟩
    rw [List.foldl_cons, List.foldl_cons, hproj', hproj]

theorem dinv_relax (nc : NetworkCore) (cur : Nat) (cd : EW) {ed : Nat}
    {st : DijkstraState} (nb : Nat × ℚ) (hinv : DInv ed st) :
    DInv ed (dijkstraRelax nc cur cd st nb) := by
  rcases dijkstraRelax_cases nc cur cd st nb with ⟨heq, _⟩ | ⟨hm, hlt, heq⟩
  · rw [heq]; exact hinv
  · rw [heq]
    constructor
    · intro kv hkv
      simp only [] at hkv ⊢
      rcases List.mem_append.mp hkv with hkv | hkv
      · by_cases hknb : kv.2 = nb.1
        · rw [if_pos hknb]
          exact ewLe_trans (ewLe_of_ewLt (hknb ▸ hlt)) (hknb ▸ hinv.keyDom kv hkv)
        · rw [if_neg hknb]
          exact hinv.keyDom kv hkv
      · have hkveq : kv = (ewAdd cd (get_effective_weight nc cur nb.1), nb.1) := by
          simpa using hkv
        subst hkveq
        rw [if_pos rfl]
        exact ewLe_refl _
    · intro v hv hvd
      simp only [] at hv hvd ⊢
      by_cases hveq : v = nb.1
      · subst hveq
        rw [if_pos rfl]
        simp
      · rw [if_neg hveq] at hvd ⊢
        exact List.mem_append_left _ (hinv.keyCov v hv hvd)
    · exact hinv.edFree

theorem dinv_fold (nc : NetworkCore) (cur : Nat) (cd : EW) {ed : Nat} :
    ∀ (l : List (Nat × ℚ)) (st : DijkstraState), DInv ed st →
    DInv ed (l.foldl (dijkstraRelax nc cur cd) st) := by
  intro l
  induction l with
  | nil => intro st h; exact h
  | cons c t ih => intro st h; exact ih _ (dinv_relax nc cur cd c h)

theorem dinv_pop_stale {ed : Nat} {st : DijkstraState} (hinv : DInv ed st)
    {kv : EW × Nat} (hstale : kv.2 ∈ st.visited) :
    DInv ed { st with pq := st.pq.erase kv } := by
  refine ⟨?_, ?_, hinv.edFree⟩
  · intro kv' hkv'
    exact hinv.keyDom kv' (List.erase_subset _ _ hkv')
  · intro v hv hvd
    have hvne : v ≠ kv.2 := fun h => hv (h ▸ hstale)
    have hne : ((st.distances v, v) : EW × Nat) ≠ kv := pair_ne_of_snd_ne hvne
    exact (List.mem_erase_of_ne hne).mpr (hinv.keyCov v hv hvd)

theorem dinv_pop_settle {ed : Nat} {st : DijkstraState} (hinv : DInv ed st)
    {kv : EW × Nat} (hfresh : kv.2 ∉ st.visited) (hned : kv.2 ≠ ed) :
    DInv ed { st with pq := st.pq.erase kv, visited := kv.2 :: st.visited } := by
  refine ⟨?_, ?_, ?_⟩
  · intro kv' hkv'
    exact hinv.keyDom kv' (List.erase_subset _ _ hkv')
  · intro v hv hvd
    have hvne : v ≠ kv.2 := fun h => hv (h ▸ List.mem_cons_self _ _)
    have hv' : v ∉ st.visited := fun h => hv (List.mem_cons_of_mem _ h)
    have hne : ((st.distances v, v) : EW × Nat) ≠ kv :=
      pair_ne_of_snd_ne (by simpa using hvne)
    exact (List.mem_erase_of_ne hne).mpr (hinv.keyCov v hv' hvd)
  · intro h
    rcases List.mem_cons.mp h with h | h
    · exact hned h.symm
    · exact hinv.edFree h

/-- At a fresh pop the popped key equals the vertex's tentative distance. -/
theorem dinv_popkey {ed : Nat} {st : DijkstraState} (hinv : DInv ed st)
    {kv : EW × Nat} (hpop : pqMin st.pq = some kv) (hfresh : kv.2 ∉ st.visited) :
    kv.1 = st.distances kv.2 := by
  have hdom := hinv.keyDom kv (pqMin_mem hpop)
  cases hd : st.distances kv.2 with
  | none =>
    rw [hd] at hdom
    cases hkv1 : kv.1 with
    | none => rfl
    | some x => rw [hkv1] at hdom; simp [ewLe] at hdom
  | some d =>
    have hcov := hinv.keyCov kv.2 hfresh (by simp [hd])
    rw [hd] at hdom
    have hle : ewLe kv.1 (st.distances kv.2) :=
      ewLe_of_entryLeB (pqMin_le hpop _ hcov)
    rw [hd] at hle
    exact ewLe_antisymm hle hdom

theorem dijkstra_loop_proj (nc : NetworkCore) (ed : Nat) :
    ∀ (fuel : Nat) (st : DijkstraState), DInv ed st →
    (dijkstraLoop nc ed fuel st).map d2g = genLoop nc (fun _ => 0) ed fuel (d2g st) := by
  intro fuel
  induction fuel with
  | zero => intro st _; rfl
  | succ f ih =>
    intro st hinv
    show (dijkstraLoop nc ed (f + 1) st).map d2g
        = genLoop nc (fun _ => 0) ed (f + 1) (d2g st)
    cases hpop : pqMin st.pq with
    | none =>
      simp only [dijkstraLoop, genLoop, d2g, hpop]
      rfl
    | some kv =>
      simp only [dijkstraLoop, genLoop, d2g, hpop]
      by_cases hvis : kv.2 ∈ st.visited
      · have hned : ¬ kv.2 = ed := fun h => hinv.edFree (h ▸ hvis)
        rw [if_pos hvis, if_neg hned, if_pos hvis]
        exact ih _ (dinv_pop_stale hinv hvis)
      · rw [if_neg hvis]
        by_cases hed : kv.2 = ed
        · rw [if_pos hed, if_pos hed]
          rfl
        · rw [if_neg hed, if_neg hed, if_neg hvis]
          have hkey : kv.1 = st.distances kv.2 := dinv_popkey hinv hpop hvis
          have hinv1 := dinv_pop_settle hinv hvis hed
          have hinv2 := dinv_fold nc kv.2 kv.1 (neighborsOf nc kv.2) _ hinv1
          rw [ih _ hinv2]
          congr 1
          have hfold := dijkstra_fold_proj nc kv.2 kv.1 (neighborsOf nc kv.2)
            { st with pq := st.pq.erase kv, visited := kv.2 :: st.visited }
            (List.mem_cons_self _ _) hkey
          rw [hfold.1]
          rfl

/-! ## Initial states and top-level search specifications -/

theorem consistent_zero {nc : NetworkCore} (hnn : EffNonneg nc) :
    Consistent nc (fun _ => 0) := by
  intro a b _
  rw [ewAdd_zero_right]
  exact hnn a b

theorem restDeg_nil (rs : List (Nat × Router)) :
    restDeg rs [] = (rs.map fun p => p.2.connections.length).sum := by
  induction rs with
  | nil => simp [restDeg]
  | cons p rest ih => rw [restDeg_cons_eq]; simp [ih]

theorem ginv_init (nc : NetworkCore) (s ed : Nat) (pot : Nat → ℚ)
    (hs : (alookup nc.routers s).isSome) :
    GInv nc s ed pot
      { dist := fun v => if v = s then some 0 else none
        prev := fun _ => none
        pq := [(some (pot s), s)]
        visited := [] } := by
  constructor
  case distS => simp
  case distNonneg =>
    intro v
    by_cases hv : v = s <;> simp [hv, ewLe]
  case chains =>
    intro v hv
    simp only [] at hv
    by_cases hvs : v = s
    · subst hvs
      refine ⟨[v], ChainP.base v rfl, ValidPath.single v, ?_, by simp, ?_, by simp⟩
      · simp [pathCost, ewLe]
      · intro x hx
        have hxv : x = v := by simpa using hx
        exact hxv ▸ hs
    · rw [if_neg hvs] at hv
      exact absurd rfl hv
  case settledOpt => intro v hv; simp at hv
  case settledFin => intro v hv; simp at hv
  case edgeRelaxed => intro u hu; simp at hu
  case pqBound =>
    intro kv hkv
    have hkveq : kv = (some (pot s), s) := by simpa using hkv
    subst hkveq
    simp [ewAdd, ewLe]
  case coverage =>
    intro v hv hvd
    simp only [] at hvd
    by_cases hvs : v = s
    · subst hvs
      refine ⟨some (pot v), by simp, ?_⟩
      simp [ewAdd, ewLe]
    · rw [if_neg hvs] at hvd
      exact absurd rfl hvd
  case pqRouters =>
    intro kv hkv
    have hkveq : kv = (some (pot s), s) := by simpa using hkv
    subst hkveq
    exact hs
  case visitedRouters => intro v hv; simp at hv
  case edFree => simp

theorem dinv_init (nc : NetworkCore) (s ed : Nat) :
    DInv ed
      { distances := fun v => if v = s then some 0 else none
        previous := fun _ => none
        pq := [(some 0, s)]
        visited := [] } := by
  refine ⟨?_, ?_, by simp⟩
  · intro kv hkv
    have hkveq : kv = (some 0, s) := by simpa using hkv
    subst hkveq
    simp [ewLe]
  · intro v _ hvd
    simp only [] at hvd ⊢
    by_cases hvs : v = s
    · subst hvs
      simp
    · rw [if_neg hvs] at hvd
      exact absurd rfl hvd

/-- Everything `find_shortest_path` guarantees on a well-formed network
with nonnegative effective weights: it never exhausts its fuel, a
returned path is a valid minimum-total-effective-weight path, and the
`None` result occurs exactly when no path exists. -/
theorem find_shortest_path_spec (nc : NetworkCore) (s e : Nat) (hwf : WF nc)
    (hnn : EffNonneg nc) (hs : (alookup nc.routers s).isSome)
    (he : (alookup nc.routers e).isSome) :
    (∃ r, find_shortest_path nc s e = some r) ∧
    (∀ p, find_shortest_path nc s e = some (some p) →
      ValidPath nc s e p ∧ ∀ q, ValidPath nc s e q →
        ewLe (pathCost nc p) (pathCost nc q)) ∧
    (find_shortest_path nc s e = some none ↔ ¬ ∃ q, ValidPath nc s e q) := by
  have hcons := consistent_zero hnn
  have hginv := ginv_init nc s e (fun _ => 0) hs
  have hmeas : (1 : Nat) + restDeg nc.routers [] < searchFuel nc := by
    rw [restDeg_nil]
    unfold searchFuel degreeSum
    omega
  obtain ⟨st', hrun, hchain, hnone, hmin⟩ :=
    genLoop_master hwf hnn hcons (searchFuel nc)
      { dist := fun v => if v = s then some 0 else none
        prev := fun _ => none
        pq := [(some 0, s)]
        visited := [] } hginv hmeas
  have hproj : Option.map d2g (dijkstraLoop nc e (searchFuel nc)
      { distances := fun v => if v = s then some 0 else none
        previous := fun _ => none
        pq := [(some 0, s)]
        visited := [] }) =
      genLoop nc (fun _ => 0) e (searchFuel nc)
        { dist := fun v => if v = s then some 0 else none
          prev := fun _ => none
          pq := [(some 0, s)]
          visited := [] } :=
    dijkstra_loop_proj nc e (searchFuel nc)
      { distances := fun v => if v = s then some 0 else none
        previous := fun _ => none
        pq := [(some 0, s)]
        visited := [] } (dinv_init nc s e)
  rw [hrun] at hproj
  obtain ⟨std, hstd, hstd2⟩ := Option.map_eq_some'.mp hproj
  have hdist : std.distances = st'.dist := congrArg GState.dist hstd2
  have hprev : std.previous = st'.prev := congrArg GState.prev hstd2
  have heval : find_shortest_path nc s e =
      (if std.distances e = none then some none
       else (walkPrevious std.previous (walkFuel nc) e).map
         fun backward => some backward.reverse) := by
    unfold find_shortest_path
    rw [if_pos ⟨hs, he⟩]
    simp only [hstd]
  by_cases hde : std.distances e = none
  · have hres : find_shortest_path nc s e = some none := by
      rw [heval, if_pos hde]
    have hnopath : ¬ ∃ q, ValidPath nc s e q := by
      rintro ⟨q, hq⟩
      exact hnone (hdist ▸ hde) q hq
    refine ⟨⟨none, hres⟩, ?_, iff_of_true hres hnopath⟩
    intro p hp
    rw [hres] at hp
    simp at hp
  · have hde' : st'.dist e ≠ none := hdist ▸ hde
    obtain ⟨p, hch, hvalid, hcostle, hnd, hrt, _⟩ := hchain e hde'
    have hlen : p.length ≤ nc.routers.length := chain_length_le hnd hrt
    have hwalk : walkPrevious st'.prev (walkFuel nc) e = some p.reverse :=
      walk_of_chain hch (walkFuel nc) (by unfold walkFuel; omega)
    have hres : find_shortest_path nc s e = some (some p) := by
      rw [heval, if_neg hde, hprev, hwalk]
      simp
    have hminp : ∀ q, ValidPath nc s e q → ewLe (pathCost nc p) (pathCost nc q) := by
      intro q hq
      exact ewLe_trans hcostle (hmin hde' q hq)
    refine ⟨⟨some p, hres⟩, ?_, ?_⟩
    · intro p' hp'
      rw [hres] at hp'
      have hpe : p = p' := by simpa using hp'
      subst hpe
      exact ⟨hvalid, hminp⟩
    · refine iff_of_false ?_ ?_
      · rw [hres]
        simp
      · intro hno
        exact hno ⟨p, hvalid⟩

/-- Everything `find_path_astar` guarantees when the Manhattan potential
towards the target is consistent: same contract as
`find_shortest_path_spec`. -/
theorem find_path_astar_spec (nc : NetworkCore) (s e : Nat) (hwf : WF nc)
    (hnn : EffNonneg nc) (hcons : Consistent nc (potTo nc e))
    (hs : (alookup nc.routers s).isSome) (he : (alookup nc.routers e).isSome) :
    (∃ r, find_path_astar nc s e = some r) ∧
    (∀ p, find_path_astar nc s e = some (some p) →
      ValidPath nc s e p ∧ ∀ q, ValidPath nc s e q →
        ewLe (pathCost nc p) (pathCost nc q)) ∧
    (find_path_astar nc s e = some none ↔ ¬ ∃ q, ValidPath nc s e q) := by
  have hginv := ginv_init nc s e (potTo nc e) hs
  have hmeas : (1 : Nat) + restDeg nc.routers [] < searchFuel nc := by
    rw [restDeg_nil]
    unfold searchFuel degreeSum
    omega
  obtain ⟨st', hrun, hchain, hnone, hmin⟩ :=
    genLoop_master hwf hnn hcons (searchFuel nc)
      { dist := fun v => if v = s then some 0 else none
        prev := fun _ => none
        pq := [(some (heuristic nc s e), s)]
        visited := [] } hginv hmeas
  have hproj : Option.map a2g (astarLoop nc e (searchFuel nc)
      { gScore := fun v => if v = s then some 0 else none
        fScore := fun v => if v = s then some (heuristic nc s e) else none
        previous := fun _ => none
        openSet := [(some (heuristic nc s e), s)]
        closedSet := [] }) =
      genLoop nc (potTo nc e) e (searchFuel nc)
        { dist := fun v => if v = s then some 0 else none
          prev := fun _ => none
          pq := [(some (heuristic nc s e), s)]
          visited := [] } :=
    astar_loop_proj nc e (searchFuel nc)
      { gScore := fun v => if v = s then some 0 else none
        fScore := fun v => if v = s then some (heuristic nc s e) else none
        previous := fun _ => none
        openSet := [(some (heuristic nc s e), s)]
        closedSet := [] }
  rw [hrun] at hproj
  obtain ⟨std, hstd, hstd2⟩ := Option.map_eq_some'.mp hproj
  have hdist : std.gScore = st'.dist := congrArg GState.dist hstd2
  have hprev : std.previous = st'.prev := congrArg GState.prev hstd2
  have heval : find_path_astar nc s e =
      (if std.gScore e = none then some none
       else (walkPrevious std.previous (walkFuel nc) e).map
         fun backward => some backward.reverse) := by
    unfold find_path_astar
    rw [if_pos ⟨hs, he⟩]
    simp only [hstd]
  by_cases hde : std.gScore e = none
  · have hres : find_path_astar nc s e = some none := by
      rw [heval, if_pos hde]
    have hnopath : ¬ ∃ q, ValidPath nc s e q := by
      rintro ⟨q, hq⟩
      exact hnone (hdist ▸ hde) q hq
    refine ⟨⟨none, hres⟩, ?_, iff_of_true hres hnopath⟩
    intro p hp
    rw [hres] at hp
    simp at hp
  · have hde' : st'.dist e ≠ none := hdist ▸ hde
    obtain ⟨p, hch, hvalid, hcostle, hnd, hrt, _⟩ := hchain e hde'
    have hlen : p.length ≤ nc.routers.length := chain_length_le hnd hrt
    have hwalk : walkPrevious st'.prev (walkFuel nc) e = some p.reverse :=
      walk_of_chain hch (walkFuel nc) (by unfold walkFuel; omega)
    have hres : find_path_astar nc s e = some (some p) := by
      rw [heval, if_neg hde, hprev, hwalk]
      simp
    have hminp : ∀ q, ValidPath nc s e q → ewLe (pathCost nc p) (pathCost nc q) := by
      intro q hq
      exact ewLe_trans hcostle (hmin hde' q hq)
    refine ⟨⟨some p, hres⟩, ?_, ?_⟩
    · intro p' hp'
      rw [hres] at hp'
      have hpe : p = p' := by simpa using hp'
      subst hpe
      exact ⟨hvalid, hminp⟩
    · refine iff_of_false ?_ ?_
      · rw [hres]
        simp
      · intro hno
        exact hno ⟨p, hvalid⟩

/-! ## Termination: the fuel budgets are never exhausted -/

section Termination

variable {nc : NetworkCore} {s ed : Nat} {pot : Nat → ℚ}

theorem chaininv_relax (hwf : WF nc) {cur : Nat} {st : GState} {nb : Nat × ℚ}
    (hcur : cur ∈ st.visited) (hnb : nb ∈ neighborsOf nc cur)
    (hch : ChainInv nc s st) : ChainInv nc s (genRelax nc pot cur st nb) := by
  rcases genRelax_cases nc pot cur st nb with ⟨heq, _⟩ | ⟨hm, hlt, heq⟩
  · rw [heq]; exact hch
  · have htent_ne : ewAdd (st.dist cur) (get_effective_weight nc cur nb.1) ≠ none :=
      ewLt_ne_none hlt
    have hdcur_ne : st.dist cur ≠ none := (ewAdd_ne_none htent_ne).1
    have hnb_router : (alookup nc.routers nb.1).isSome := wf_neighbor hwf hnb
    have hlink : Linked nc cur nb.1 := linked_of_neighbor hnb
    rw [heq]
    intro v hv
    simp only [] at hv ⊢
    by_cases hveq : v = nb.1
    · subst hveq
      obtain ⟨pc, hchain, hvalid, hcost, hnd, hrouters, hsettled⟩ := hch cur hdcur_ne
      have hpc_vis : ∀ x ∈ pc, x ∈ st.visited := by
        intro x hx
        by_cases hxc : x = cur
        · exact hxc ▸ hcur
        · exact hsettled x hx hxc
      have hnb_notin : nb.1 ∉ pc := fun hin => hm (hpc_vis _ hin)
      refine ⟨pc ++ [nb.1], ?_, ?_, ?_, ?_, ?_, ?_⟩
      · refine ChainP.step cur nb.1 pc (by simp) ?_
        refine chain_congr hchain fun x hx => ?_
        have hxn : x ≠ nb.1 := fun h => hnb_notin (h ▸ hx)
        simp [hxn]
      · exact vp_snoc hvalid hlink
      · rw [vp_cost_snoc nb.1 hvalid]
        simp only [if_pos]
        exact ewLe_add_right _ hcost
      · refine List.nodup_append.mpr ⟨hnd, List.nodup_singleton _, ?_⟩
        intro x hx hx'
        have hxe : x = nb.1 := by simpa using hx'
        exact hnb_notin (hxe ▸ hx)
      · intro x hx
        rcases List.mem_append.mp hx with hx | hx
        · exact hrouters x hx
        · have hxe : x = nb.1 := by simpa using hx
          exact hxe ▸ hnb_router
      · intro x hx hxne
        rcases List.mem_append.mp hx with hx | hx
        · exact hpc_vis x hx
        · exact absurd (by simpa using hx) hxne
    · rw [if_neg hveq] at hv
      obtain ⟨p, hchain, hvalid, hcost, hnd, hrouters, hsettled⟩ := hch v hv
      refine ⟨p, ?_, hvalid, by simpa [hveq] using hcost, hnd, hrouters, hsettled⟩
      refine chain_congr hchain fun x hx => ?_
      have hxv : x ≠ nb.1 := by
        intro h
        by_cases hxx : x = v
        · exact hveq (hxx.symm.trans h)
        · exact hm (h ▸ hsettled x hx hxx)
      simp [hxv]

theorem chaininv_fold (hwf : WF nc) {cur : Nat} :
    ∀ (l : List (Nat × ℚ)) (st : GState),
    (∀ c ∈ l, c ∈ neighborsOf nc cur) → cur ∈ st.visited → ChainInv nc s st →
    ChainInv nc s (l.foldl (genRelax nc pot cur) st) := by
  intro l
  induction l with
  | nil => intro st _ _ hch; exact hch
  | cons c t ih =>
    intro st hsub hcur hch
    rw [List.foldl_cons]
    refine ih _ (fun x hx => hsub x (by simp [hx])) ?_
      (chaininv_relax hwf hcur (hsub c (by simp)) hch)
    rw [genRelax_visited]
    exact hcur

theorem chaininv_cons_visited {st : GState} (pq' : List (EW × Nat)) (cur : Nat)
    (hch : ChainInv nc s st) :
    ChainInv nc s { st with pq := pq', visited := cur :: st.visited } := by
  intro v hv
  obtain ⟨p, hchain, hvalid, hcost, hnd, hrouters, hsettled⟩ := hch v hv
  exact ⟨p, hchain, hvalid, hcost, hnd, hrouters,
    fun x hx hxne => List.mem_cons_of_mem _ (hsettled x hx hxne)⟩

/-- The generalized loop always terminates within the fuel budget, and
its final state supports path reconstruction; no sign condition on the
weights is needed. -/
theorem genLoop_term (hwf : WF nc) :
    ∀ (fuel : Nat) (st : GState), ChainInv nc s st →
    st.pq.length + restDeg nc.routers st.visited < fuel →
    ∃ st', genLoop nc pot ed fuel st = some st' ∧ ChainInv nc s st' := by
  intro fuel
  induction fuel with
  | zero => intro st _ h; omega
  | succ f ih =>
    intro st hch hfuel
    cases hpop : pqMin st.pq with
    | none => exact ⟨st, by simp [genLoop, hpop], hch⟩
    | some kv =>
      have hkv_mem := pqMin_mem hpop
      have hpq_pos : 0 < st.pq.length :=
        List.length_pos.mpr (List.ne_nil_of_mem hkv_mem)
      have hlen_erase : (st.pq.erase kv).length = st.pq.length - 1 :=
        List.length_erase_of_mem hkv_mem
      by_cases hed : kv.2 = ed
      · exact ⟨{ st with pq := st.pq.erase kv }, by simp [genLoop, hpop, hed], hch⟩
      · by_cases hvis : kv.2 ∈ st.visited
        · have hmeas : ({ st with pq := st.pq.erase kv } : GState).pq.length +
              restDeg nc.routers st.visited < f := by
            simp only [hlen_erase]
            omega
          obtain ⟨st', hrun, hch'⟩ := ih { st with pq := st.pq.erase kv } hch hmeas
          exact ⟨st', by simp [genLoop, hpop, hed, hvis, hrun], hch'⟩
        · have hch1 := chaininv_cons_visited (st.pq.erase kv) kv.2 hch
          have hch2 := @chaininv_fold nc s pot hwf kv.2 (neighborsOf nc kv.2) _
            (fun c hc => hc) (List.mem_cons_self _ _) hch1
          have hvis2 : ((neighborsOf nc kv.2).foldl (genRelax nc pot kv.2)
              { st with pq := st.pq.erase kv, visited := kv.2 :: st.visited }).visited
              = kv.2 :: st.visited := foldRelax_visited nc pot kv.2 _ _
          have hlen2 : ((neighborsOf nc kv.2).foldl (genRelax nc pot kv.2)
              { st with pq := st.pq.erase kv, visited := kv.2 :: st.visited }).pq.length
              ≤ (st.pq.length - 1) + (neighborsOf nc kv.2).length := by
            have hfl := foldRelax_pq_len nc pot kv.2 (neighborsOf nc kv.2)
              { st with pq := st.pq.erase kv, visited := kv.2 :: st.visited }
            simp only [hlen_erase] at hfl
            omega
          have hdeg : (neighborsOf nc kv.2).length =
              (match alookup nc.routers kv.2 with
                | some r => r.connections.length
                | none => 0) := by
            unfold neighborsOf
            cases alookup nc.routers kv.2 <;> rfl
          have hstep := restDeg_step nc.routers st.visited kv.2 hvis
          have hmeas2 : ((neighborsOf nc kv.2).foldl (genRelax nc pot kv.2)
              { st with pq := st.pq.erase kv, visited := kv.2 :: st.visited }).pq.length +
              restDeg nc.routers ((neighborsOf nc kv.2).foldl (genRelax nc pot kv.2)
                { st with pq := st.pq.erase kv, visited := kv.2 :: st.visited }).visited
              < f := by
            rw [hvis2]
            rw [hdeg] at hlen2
            omega
          obtain ⟨st', hrun, hch'⟩ := ih _ hch2 hmeas2
          exact ⟨st', by simp [genLoop, hpop, hed, hvis, hrun], hch'⟩

end Termination

/-- `find_shortest_path` never exhausts its fuel budgets (search loop and
walk-back loop) on a well-formed network, whatever the weights. -/
theorem find_shortest_path_total (nc : NetworkCore) (s e : Nat) (hwf : WF nc) :
    find_shortest_path nc s e ≠ none := by
  by_cases hguard : ((alookup nc.routers s).isSome ∧ (alookup nc.routers e).isSome)
  · have hch0 := (ginv_init nc s e (fun _ => 0) hguard.1).chains
    have hmeas : (1 : Nat) + restDeg nc.routers [] < searchFuel nc := by
      rw [restDeg_nil]
      unfold searchFuel degreeSum
      omega
    obtain ⟨st', hrun, hch⟩ := @genLoop_term nc s e (fun _ => 0) hwf (searchFuel nc)
      { dist := fun v => if v = s then some 0 else none
        prev := fun _ => none
        pq := [(some 0, s)]
        visited := [] } hch0 hmeas
    have hproj : Option.map d2g (dijkstraLoop nc e (searchFuel nc)
        { distances := fun v => if v = s then some 0 else none
          previous := fun _ => none
          pq := [(some 0, s)]
          visited := [] }) =
        genLoop nc (fun _ => 0) e (searchFuel nc)
          { dist := fun v => if v = s then some 0 else none
            prev := fun _ => none
            pq := [(some 0, s)]
            visited := [] } :=
      dijkstra_loop_proj nc e (searchFuel nc)
        { distances := fun v => if v = s then some 0 else none
          previous := fun _ => none
          pq := [(some 0, s)]
          visited := [] } (dinv_init nc s e)
    rw [hrun] at hproj
    obtain ⟨std, hstd, hstd2⟩ := Option.map_eq_some'.mp hproj
    have hprev : std.previous = st'.prev := congrArg GState.prev hstd2
    have hdist : std.distances = st'.dist := congrArg GState.dist hstd2
    have heval : find_shortest_path nc s e =
        (if std.distances e = none then some none
         else (walkPrevious std.previous (walkFuel nc) e).map
           fun backward => some backward.reverse) := by
      unfold find_shortest_path
      rw [if_pos hguard]
      simp only [hstd]
    by_cases hde : std.distances e = none
    · rw [heval, if_pos hde]
      simp
    · obtain ⟨p, hchp, _, _, hnd, hrt, _⟩ := hch e (hdist ▸ hde)
      have hlen : p.length ≤ nc.routers.length := chain_length_le hnd hrt
      have hwalk : walkPrevious st'.prev (walkFuel nc) e = some p.reverse :=
        walk_of_chain hchp (walkFuel nc) (by unfold walkFuel; omega)
      rw [heval, if_neg hde, hprev, hwalk]
      simp
  · unfold find_shortest_path
    rw [if_neg hguard]
    simp

/-- `find_path_astar` never exhausts its fuel budgets on a well-formed
network, whatever the weights and the heuristic values. -/
theorem find_path_astar_total (nc : NetworkCore) (s e : Nat) (hwf : WF nc) :
    find_path_astar nc s e ≠ none := by
  by_cases hguard : ((alookup nc.routers s).isSome ∧ (alookup nc.routers e).isSome)
  · have hch0 := (ginv_init nc s e (potTo nc e) hguard.1).chains
    have hmeas : (1 : Nat) + restDeg nc.routers [] < searchFuel nc := by
      rw [restDeg_nil]
      unfold searchFuel degreeSum
      omega
    obtain ⟨st', hrun, hch⟩ := @genLoop_term nc s e (potTo nc e) hwf (searchFuel nc)
      { dist := fun v => if v = s then some 0 else none
        prev := fun _ => none
        pq := [(some (heuristic nc s e), s)]
        visited := [] } hch0 hmeas
    have hproj : Option.map a2g (astarLoop nc e (searchFuel nc)
        { gScore := fun v => if v = s then some 0 else none
          fScore := fun v => if v = s then some (heuristic nc s e) else none
          previous := fun _ => none
          openSet := [(some (heuristic nc s e), s)]
          closedSet := [] }) =
        genLoop nc (potTo nc e) e (searchFuel nc)
          { dist := fun v => if v = s then some 0 else none
            prev := fun _ => none
            pq := [(some (heuristic nc s e), s)]
            visited := [] } :=
      astar_loop_proj nc e (searchFuel nc)
        { gScore := fun v => if v = s then some 0 else none
          fScore := fun v => if v = s then some (heuristic nc s e) else none
          previous := fun _ => none
          openSet := [(some (heuristic nc s e), s)]
          closedSet := [] }
    rw [hrun] at hproj
    obtain ⟨std, hstd, hstd2⟩ := Option.map_eq_some'.mp hproj
    have hprev : std.previous = st'.prev := congrArg GState.prev hstd2
    have hdist : std.gScore = st'.dist := congrArg GState.dist hstd2
    have heval : find_path_astar nc s e =
        (if std.gScore e = none then some none
         else (walkPrevious std.previous (walkFuel nc) e).map
           fun backward => some backward.reverse) := by
      unfold find_path_astar
      rw [if_pos hguard]
      simp only [hstd]
    by_cases hde : std.gScore e = none
    · rw [heval, if_pos hde]
      simp
    · obtain ⟨p, hchp, _, _, hnd, hrt, _⟩ := hch e (hdist ▸ hde)
      have hlen : p.length ≤ nc.routers.length := chain_length_le hnd hrt
      have hwalk : walkPrevious st'.prev (walkFuel nc) e = some p.reverse :=
        walk_of_chain hchp (walkFuel nc) (by unfold walkFuel; omega)
      rw [heval, if_neg hde, hprev, hwalk]
      simp
  · unfold find_path_astar
    rw [if_neg hguard]
    simp

/-! ## Topology operations: lookup characterizations -/

theorem aupdate_mem {α : Type} {l : List (Nat × α)} {k : Nat} {v : α} {p : Nat × α}
    (h : p ∈ aupdate l k v) : p = (k, v) ∨ p ∈ l := by
  induction l with
  | nil => simpa [aupdate] using h
  | cons q rest ih =>
    by_cases hq : q.1 = k
    · rw [aupdate, if_pos hq] at h
      rcases List.mem_cons.mp h with h | h
      · exact Or.inl h
      · exact Or.inr (List.mem_cons_of_mem _ h)
    · rw [aupdate, if_neg hq] at h
      rcases List.mem_cons.mp h with h | h
      · exact Or.inr (h ▸ List.mem_cons_self _ _)
      · rcases ih h with h | h
        · exact Or.inl h
        · exact Or.inr (List.mem_cons_of_mem _ h)

theorem alookup_append {α : Type} (l1 l2 : List (Nat × α)) (k : Nat) :
    alookup (l1 ++ l2) k =
      match alookup l1 k with
      | some v => some v
      | none => alookup l2 k := by
  induction l1 with
  | nil => simp [alookup]
  | cons p rest ih =>
    by_cases hp : p.1 = k
    · simp [alookup, hp]
    · simp [alookup, hp, ih]

theorem alookup_updConn (rs : List (Nat × Router)) (a b : Nat) (w : ℚ) (x : Nat) :
    alookup (updConn rs a b w) x =
      if x = a then
        (alookup rs a).map fun r => { r with connections := aupdate r.connections b w }
      else alookup rs x := by
  unfold updConn
  cases ha : alookup rs a with
  | none =>
    by_cases hx : x = a
    · rw [if_pos hx, hx, ha]
      rfl
    · rw [if_neg hx]
  | some r =>
    rw [alookup_aupdate]
    by_cases hx : x = a
    · rw [if_pos hx.symm, if_pos hx]
      rfl
    · rw [if_neg (fun h => hx h.symm), if_neg hx]

theorem mem_updConn {rs : List (Nat × Router)} {a b : Nat} {w : ℚ} {p : Nat × Router}
    (h : p ∈ updConn rs a b w) :
    p ∈ rs ∨ ∃ r, alookup rs a = some r ∧
      p = (a, { r with connections := aupdate r.connections b w }) := by
  unfold updConn at h
  cases ha : alookup rs a with
  | none => rw [ha] at h; exact Or.inl h
  | some r =>
    rw [ha] at h
    rcases aupdate_mem h with h | h
    · exact Or.inr ⟨r, rfl, h⟩
    · exact Or.inl h

/-- Effect of a single directed `connections[b] = w` assignment at router
`a` on the recorded base weights. -/
theorem connBase_updConn_nc (nc : NetworkCore) (a b : Nat) (w : ℚ) (x y : Nat) :
    connBase { nc with routers := updConn nc.routers a b w } x y =
      if x = a ∧ (alookup nc.routers a).isSome then
        (if y = b then some w else connBase nc x y)
      else connBase nc x y := by
  unfold connBase
  simp only [alookup_updConn]
  by_cases hx : x = a
  · cases ha : alookup nc.routers a with
    | none => simp [hx, ha]
    | some r =>
      simp only [hx, ha, Option.map_some', Option.isSome_some, and_self, ite_true,
        and_true, if_pos]
      rw [alookup_aupdate]
      by_cases hy : y = b
      · rw [if_pos (hy ▸ rfl), if_pos hy]
      · rw [if_neg (fun h => hy h.symm), if_neg hy]
  · simp [hx]

theorem connBase_addConn (nc : NetworkCore) (r1 r2 : Nat) (w : ℚ) (x y : Nat) :
    connBase (add_connection nc r1 r2 w) x y =
      if ((alookup nc.routers r1).isSome ∧ (alookup nc.routers r2).isSome) ∧
          ((x = r1 ∧ y = r2) ∨ (x = r2 ∧ y = r1)) then some w
      else connBase nc x y := by
  unfold add_connection addConn
  by_cases hg : (alookup nc.routers r1).isSome ∧ (alookup nc.routers r2).isSome
  · rw [if_pos hg]
    have hmid : ∀ x' y', connBase { nc with routers := updConn nc.routers r1 r2 w } x' y' =
        if x' = r1 ∧ y' = r2 then some w else connBase nc x' y' := by
      intro x' y'
      rw [connBase_updConn_nc]
      by_cases hx : x' = r1
      · rw [if_pos ⟨hx, hg.1⟩]
        by_cases hy : y' = r2
        · rw [if_pos hy, if_pos ⟨hx, hy⟩]
        · rw [if_neg hy, if_neg (fun h => hy h.2)]
      · rw [if_neg (fun h => hx h.1), if_neg (fun h => hx h.1)]
    have h2 : (alookup (updConn nc.routers r1 r2 w) r2).isSome := by
      rw [alookup_updConn]
      by_cases h21 : r2 = r1
      · rw [if_pos h21, h21]
        obtain ⟨r, hr⟩ := Option.isSome_iff_exists.mp hg.1
        simp [hr]
      · rw [if_neg h21]
        exact hg.2
    have hfin : connBase ({ nc with
          routers := updConn (updConn nc.routers r1 r2 w) r2 r1 w } : NetworkCore) x y =
        if x = r2 ∧ (alookup (updConn nc.routers r1 r2 w) r2).isSome then
          (if y = r1 then some w
           else connBase { nc with routers := updConn nc.routers r1 r2 w } x y)
        else connBase { nc with routers := updConn nc.routers r1 r2 w } x y :=
      connBase_updConn_nc { nc with routers := updConn nc.routers r1 r2 w } r2 r1 w x y
    rw [hfin]
    by_cases hx2 : x = r2
    · rw [if_pos ⟨hx2, h2⟩]
      by_cases hy1 : y = r1
      · rw [if_pos hy1, if_pos ⟨hg, Or.inr ⟨hx2, hy1⟩⟩]
      · rw [if_neg hy1, hmid]
        by_cases hA : x = r1 ∧ y = r2
        · exact absurd (hA.2.trans (hA.1 ▸ hx2 : r1 = r2).symm) hy1
        · rw [if_neg hA, if_neg]
          rintro ⟨_, h | h⟩
          · exact hA h
          · exact hy1 h.2
    · rw [if_neg (fun h => hx2 h.1), hmid]
      by_cases hA : x = r1 ∧ y = r2
      · rw [if_pos hA, if_pos ⟨hg, Or.inl hA⟩]
      · rw [if_neg hA, if_neg]
        rintro ⟨_, h | h⟩
        · exact hA h
        · exact hx2 h.1
  · rw [if_neg hg, if_neg (fun h => hg h.1)]

theorem alookup_resample (nc : NetworkCore) (draw : Nat → ℚ) (k : Nat) :
    alookup (update_network_conditions nc draw).routers k =
      (alookup nc.routers k).map fun r => { r with congestion := draw k } := by
  unfold update_network_conditions
  exact alookup_map_congr nc.routers (fun p => { p.2 with congestion := draw p.1 }) k

theorem connBase_resample (nc : NetworkCore) (draw : Nat → ℚ) (x y : Nat) :
    connBase (update_network_conditions nc draw) x y = connBase nc x y := by
  unfold connBase
  rw [alookup_resample]
  cases alookup nc.routers x <;> rfl

theorem mkRouters_succ (n : Nat) :
    mkRouters (n + 1) = (mkRouters n).bind fun rs =>
      (positions.get? n).map fun xy =>
        rs ++ [(n, { id := n, congestion := 1, connections := [], x := xy.1, y := xy.2 })] := by
  unfold mkRouters
  rw [List.range_succ, List.foldl_append]
  rfl

theorem mkRouters_spec : ∀ (n : Nat) (rs : List (Nat × Router)),
    mkRouters n = some rs →
    (∀ p ∈ rs, p.2.connections = ([] : List (Nat × ℚ)) ∧ p.2.congestion = 1) ∧
    (∀ k, (alookup rs k).isSome ↔ k < n) := by
  intro n
  induction n with
  | zero =>
    intro rs h
    have hrs : rs = [] := by simpa [mkRouters] using h.symm
    subst hrs
    exact ⟨by simp, by simp [alookup]⟩
  | succ m ih =>
    intro rs h
    rw [mkRouters_succ] at h
    cases hm : mkRouters m with
    | none => rw [hm] at h; simp at h
    | some rs0 =>
      rw [hm] at h
      cases hpos : positions.get? m with
      | none => rw [hpos] at h; simp at h
      | some xy =>
        rw [hpos] at h
        simp only [Option.some_bind, Option.map_some', Option.some.injEq] at h
        subst h
        obtain ⟨hflat, hkeys⟩ := ih rs0 hm
        constructor
        · intro p hp
          rcases List.mem_append.mp hp with hp | hp
          · exact hflat p hp
          · have hpe := List.mem_singleton.mp hp
            subst hpe
            exact ⟨rfl, rfl⟩
        · intro k
          rw [alookup_append]
          cases hk : alookup rs0 k with
          | none =>
            have hklt : ¬ k < m := by
              rw [← hkeys k, hk]
              simp
            simp only []
            simp only [alookup]
            by_cases hkm : m = k
            · rw [if_pos hkm]
              simp only [Option.isSome_some, true_iff]
              omega
            · rw [if_neg hkm]
              simp only [Option.isSome_none, Bool.false_eq_true, false_iff]
              omega
          | some r =>
            have hklt : k < m := by
              rw [← hkeys k, hk]
              rfl
            simp only []
            simp only [Option.isSome_some, true_iff]
            omega

theorem mkRouters_isSome : ∀ n : Nat, (mkRouters n).isSome ↔ n ≤ 6 := by
  intro n
  induction n with
  | zero => simp [mkRouters]
  | succ m ih =>
    rw [mkRouters_succ]
    cases hm : mkRouters m with
    | none =>
      rw [hm] at ih
      simp only [Option.isSome_none, Bool.false_eq_true, false_iff] at ih
      simp only [Option.none_bind, Option.isSome_none, Bool.false_eq_true, false_iff]
      omega
    | some rs0 =>
      rw [hm] at ih
      simp only [Option.isSome_some, true_iff] at ih
      simp only [Option.some_bind]
      cases hpos : positions.get? m with
      | none =>
        have hge : ¬ m < 6 := by
          intro hc
          have hc' : m < positions.length := hc
          rw [List.get?_eq_get hc'] at hpos
          simp at hpos
        simp only [Option.map_none', Option.isSome_none, Bool.false_eq_true, false_iff]
        omega
      | some xy =>
        have hlt : m < 6 := by
          by_contra hge
          have hnone : positions.get? m = none := by
            apply List.get?_eq_none.mpr
            have hplen : positions.length = 6 := rfl
            omega
          rw [hnone] at hpos
          simp at hpos
        simp only [Option.map_some', Option.isSome_some, true_iff]
        omega

/-! ## Preservation of the structural invariants -/

theorem alookup_updConn_isSome (rs : List (Nat × Router)) (a b : Nat) (w : ℚ) (k : Nat) :
    (alookup (updConn rs a b w) k).isSome = (alookup rs k).isSome := by
  rw [alookup_updConn]
  by_cases hk : k = a
  · rw [if_pos hk, hk]
    cases alookup rs a <;> rfl
  · rw [if_neg hk]

theorem alookup_addConn_isSome (rs : List (Nat × Router)) (r1 r2 : Nat) (w : ℚ) (k : Nat) :
    (alookup (addConn rs r1 r2 w) k).isSome = (alookup rs k).isSome := by
  unfold addConn
  by_cases hg : (alookup rs r1).isSome ∧ (alookup rs r2).isSome
  · rw [if_pos hg, alookup_updConn_isSome, alookup_updConn_isSome]
  · rw [if_neg hg]

theorem add_connection_noop (nc : NetworkCore) (r1 r2 : Nat) (w : ℚ)
    (hg : ¬ ((alookup nc.routers r1).isSome ∧ (alookup nc.routers r2).isSome)) :
    add_connection nc r1 r2 w = nc := by
  unfold add_connection addConn
  rw [if_neg hg]

/-- Any router record of the table after `add_connection` comes from a
router record of the old table with the same id and congestion, and its
connection keys are old keys or one of the two linked ids. -/
theorem mem_addConn {rs : List (Nat × Router)} {r1 r2 : Nat} {w : ℚ} {p : Nat × Router}
    (h : p ∈ addConn rs r1 r2 w) :
    ∃ q ∈ rs, p.1 = q.1 ∧ p.2.congestion = q.2.congestion ∧
      ∀ c ∈ p.2.connections,
        (∃ w', ((c.1, w') : Nat × ℚ) ∈ q.2.connections) ∨ c.1 = r1 ∨ c.1 = r2 := by
  have hbase : ∀ {rs' : List (Nat × Router)} {a b : Nat} {p' : Nat × Router},
      p' ∈ updConn rs' a b w →
      ∃ q ∈ rs', p'.1 = q.1 ∧ p'.2.congestion = q.2.congestion ∧
        ∀ c ∈ p'.2.connections,
          (∃ w', ((c.1, w') : Nat × ℚ) ∈ q.2.connections) ∨ c.1 = b := by
    intro rs' a b p' hp'
    rcases mem_updConn hp' with hp' | ⟨r, har, hp'⟩
    · exact ⟨p', hp', rfl, rfl, fun c hc => Or.inl ⟨c.2, hc⟩⟩
    · subst hp'
      refine ⟨(a, r), alookup_mem har, rfl, rfl, ?_⟩
      intro c hc
      rcases aupdate_mem hc with hc | hc
      · exact Or.inr (by rw [hc])
      · exact Or.inl ⟨c.2, hc⟩
  unfold addConn at h
  by_cases hg : (alookup rs r1).isSome ∧ (alookup rs r2).isSome
  · rw [if_pos hg] at h
    obtain ⟨q1, hq1, hid1, hcong1, hconn1⟩ := hbase h
    obtain ⟨q2, hq2, hid2, hcong2, hconn2⟩ := hbase hq1
    refine ⟨q2, hq2, hid1.trans hid2, hcong1.trans hcong2, ?_⟩
    intro c hc
    rcases hconn1 c hc with ⟨w', hw'⟩ | hc1
    · rcases hconn2 (c.1, w') hw' with ⟨w'', hw''⟩ | hc2
      · exact Or.inl ⟨w'', hw''⟩
      · exact Or.inr (Or.inr hc2)
    · exact Or.inr (Or.inl hc1)
  · rw [if_neg hg] at h
    exact ⟨p, h, rfl, rfl, fun c hc => Or.inl ⟨c.2, hc⟩⟩

theorem wf_addConn {nc : NetworkCore} (hwf : WF nc) (r1 r2 : Nat) (w : ℚ) :
    WF (add_connection nc r1 r2 w) := by
  by_cases hg : (alookup nc.routers r1).isSome ∧ (alookup nc.routers r2).isSome
  · intro p hp c hc
    have hrs : (add_connection nc r1 r2 w).routers = addConn nc.routers r1 r2 w := rfl
    rw [hrs] at hp
    rw [hrs, alookup_addConn_isSome]
    obtain ⟨q, hq, _, _, hconn⟩ := mem_addConn hp
    rcases hconn c hc with ⟨w', hw'⟩ | hc1 | hc2
    · exact hwf q hq (c.1, w') hw'
    · exact hc1 ▸ hg.1
    · exact hc2 ▸ hg.2
  · rw [add_connection_noop nc r1 r2 w hg]
    exact hwf

theorem wf_resample {nc : NetworkCore} (hwf : WF nc) (draw : Nat → ℚ) :
    WF (update_network_conditions nc draw) := by
  intro p hp c hc
  unfold update_network_conditions at hp
  simp only [List.mem_map] at hp
  obtain ⟨q, hq, hpq⟩ := hp
  subst hpq
  simp only [] at hc
  have hold := hwf q hq c hc
  rw [alookup_resample]
  cases halo : alookup nc.routers c.1 with
  | none => rw [halo] at hold; simp at hold
  | some r => rfl

theorem symm_addConn {nc : NetworkCore} (hsym : SymmetricLinks nc) (r1 r2 : Nat) (w : ℚ) :
    SymmetricLinks (add_connection nc r1 r2 w) := by
  intro x y
  rw [connBase_addConn, connBase_addConn]
  by_cases hc : ((alookup nc.routers r1).isSome ∧ (alookup nc.routers r2).isSome) ∧
      ((x = r1 ∧ y = r2) ∨ (x = r2 ∧ y = r1))
  · rw [if_pos hc, if_pos ⟨hc.1, hc.2.symm.imp And.symm And.symm⟩]
  · rw [if_neg hc, if_neg, hsym x y]
    rintro ⟨hg, hxy⟩
    exact hc ⟨hg, hxy.symm.imp And.symm And.symm⟩

theorem noself_addConn {nc : NetworkCore} (hns : NoSelfLoops nc) (r1 r2 : Nat) (w : ℚ)
    (hne : r1 ≠ r2) : NoSelfLoops (add_connection nc r1 r2 w) := by
  intro x
  rw [connBase_addConn]
  rw [if_neg, hns x]
  rintro ⟨_, ⟨h1, h2⟩ | ⟨h1, h2⟩⟩
  · exact hne (h1.symm.trans h2)
  · exact hne (h2.symm.trans h1)

theorem connBase_flat {nc : NetworkCore}
    (hflat : ∀ p ∈ nc.routers, p.2.connections = ([] : List (Nat × ℚ))) (x y : Nat) :
    connBase nc x y = none := by
  unfold connBase
  cases hx : alookup nc.routers x with
  | none => rfl
  | some r =>
    have hconn := hflat (x, r) (alookup_mem hx)
    simp only at hconn
    show alookup r.connections y = none
    rw [hconn]
    rfl

/-- Generic preservation through the construction wiring fold. -/
theorem fold_addConn_pres {P : List (Nat × Router) → Prop}
    (l : List (Nat × Nat × ℚ))
    (hstep : ∀ rs c, c ∈ l → P rs → P (addConn rs c.1 c.2.1 c.2.2)) :
    ∀ rs, P rs → P (l.foldl (fun rs c => addConn rs c.1 c.2.1 c.2.2) rs) := by
  induction l with
  | nil => intro rs h; exact h
  | cons c t ih =>
    intro rs h
    rw [List.foldl_cons]
    exact ih (fun rs' c' hc' h' => hstep rs' c' (by simp [hc']) h') _
      (hstep rs c (by simp) h)

theorem new_wf {n : Nat} {nc : NetworkCore} (h : NetworkCore.new n = some nc) : WF nc := by
  unfold NetworkCore.new setup_network at h
  cases hmk : mkRouters n with
  | none => rw [hmk] at h; simp at h
  | some rs0 =>
    rw [hmk] at h
    simp only [Option.map_some', Option.some.injEq] at h
    subst h
    obtain ⟨hflat, _⟩ := mkRouters_spec n rs0 hmk
    have hbase : WF { routers := rs0, algorithm := "dijkstra" } := by
      intro p hp c hc
      rw [(hflat p hp).1] at hc
      simp at hc
    have hpres := fold_addConn_pres (P := fun rs =>
        WF { routers := rs, algorithm := "dijkstra" }) connectionsTable
      (fun rs c _ hw => wf_addConn hw c.1 c.2.1 c.2.2) rs0 hbase
    exact hpres

theorem new_symm {n : Nat} {nc : NetworkCore} (h : NetworkCore.new n = some nc) :
    SymmetricLinks nc := by
  unfold NetworkCore.new setup_network at h
  cases hmk : mkRouters n with
  | none => rw [hmk] at h; simp at h
  | some rs0 =>
    rw [hmk] at h
    simp only [Option.map_some', Option.some.injEq] at h
    subst h
    obtain ⟨hflat, _⟩ := mkRouters_spec n rs0 hmk
    have hbase : SymmetricLinks { routers := rs0, algorithm := "dijkstra" } := by
      intro x y
      rw [connBase_flat (fun p hp => (hflat p hp).1) x y,
        connBase_flat (fun p hp => (hflat p hp).1) y x]
    exact fold_addConn_pres (P := fun rs =>
        SymmetricLinks { routers := rs, algorithm := "dijkstra" }) connectionsTable
      (fun rs c _ hsym => symm_addConn hsym c.1 c.2.1 c.2.2) rs0 hbase

theorem new_noself {n : Nat} {nc : NetworkCore} (h : NetworkCore.new n = some nc) :
    NoSelfLoops nc := by
  unfold NetworkCore.new setup_network at h
  cases hmk : mkRouters n with
  | none => rw [hmk] at h; simp at h
  | some rs0 =>
    rw [hmk] at h
    simp only [Option.map_some', Option.some.injEq] at h
    subst h
    obtain ⟨hflat, _⟩ := mkRouters_spec n rs0 hmk
    have hbase : NoSelfLoops { routers := rs0, algorithm := "dijkstra" } := by
      intro x
      exact connBase_flat (fun p hp => (hflat p hp).1) x x
    have hdist : ∀ c ∈ connectionsTable, c.1 ≠ c.2.1 := by decide
    exact fold_addConn_pres (P := fun rs =>
        NoSelfLoops { routers := rs, algorithm := "dijkstra" }) connectionsTable
      (fun rs c hc hns => noself_addConn hns c.1 c.2.1 c.2.2 (hdist c hc)) rs0 hbase

theorem congOne_addConn {nc : NetworkCore} (h : CongOne nc) (a b : Nat) (w : ℚ) :
    CongOne (add_connection nc a b w) := by
  intro p hp
  have hp' : p ∈ addConn nc.routers a b w := hp
  obtain ⟨q, hq, _, hc, _⟩ := mem_addConn hp'
  rw [hc]
  exact h q hq

theorem new_congestion_one {n : Nat} {nc : NetworkCore}
    (h : NetworkCore.new n = some nc) : CongOne nc := by
  unfold NetworkCore.new setup_network at h
  cases hmk : mkRouters n with
  | none => rw [hmk] at h; simp at h
  | some rs0 =>
    rw [hmk] at h
    simp only [Option.map_some', Option.some.injEq] at h
    subst h
    obtain ⟨hflat, _⟩ := mkRouters_spec n rs0 hmk
    have hbase : CongOne { routers := rs0, algorithm := "dijkstra" } :=
      fun p hp => (hflat p hp).2
    exact fold_addConn_pres (P := fun rs =>
        CongOne { routers := rs, algorithm := "dijkstra" }) connectionsTable
      (fun rs c _ hcong => congOne_addConn hcong c.1 c.2.1 c.2.2) rs0 hbase

/-! ## Reachable-state invariants -/

theorem reachable_wf {nc : NetworkCore} (h : Reachable nc) : WF nc := by
  induction h with
  | construct n nc hn => exact new_wf hn
  | addLink nc a b w _ ih => exact wf_addConn ih a b w
  | resample nc draw _ ih => exact wf_resample ih draw

theorem reachable_symm {nc : NetworkCore} (h : Reachable nc) : SymmetricLinks nc := by
  induction h with
  | construct n nc hn => exact new_symm hn
  | addLink nc a b w _ ih => exact symm_addConn ih a b w
  | resample nc draw _ ih =>
    intro x y
    rw [connBase_resample, connBase_resample]
    exact ih x y

theorem reachableNS_noself {nc : NetworkCore} (h : ReachableNS nc) : NoSelfLoops nc := by
  induction h with
  | construct n nc hn => exact new_noself hn
  | addLink nc a b w _ hne ih => exact noself_addConn ih a b w hne
  | resample nc draw _ ih =>
    intro x
    rw [connBase_resample]
    exact ih x

theorem reachableNS_reachable {nc : NetworkCore} (h : ReachableNS nc) : Reachable nc := by
  induction h with
  | construct n nc hn => exact Reachable.construct n nc hn
  | addLink nc a b w _ hne ih => exact Reachable.addLink nc a b w ih
  | resample nc draw _ ih => exact Reachable.resample nc draw ih

/-- Symmetry of the effective weight, including the `inf` sentinel cases,
on any network with symmetric links. -/
theorem eff_symm {nc : NetworkCore} (hsym : SymmetricLinks nc) (u v : Nat) :
    get_effective_weight nc u v = get_effective_weight nc v u := by
  have hcb := hsym u v
  unfold connBase at hcb
  unfold get_effective_weight
  cases hu : alookup nc.routers u with
  | none =>
    cases hv : alookup nc.routers v with
    | none => rfl
    | some rv => rfl
  | some ru =>
    cases hv : alookup nc.routers v with
    | none => rfl
    | some rv =>
      rw [hu, hv] at hcb
      have hcb' : alookup ru.connections v = alookup rv.connections u := hcb
      show (match alookup ru.connections v with
            | none => (none : EW)
            | some bw => some (ratMul (ratMul bw ru.congestion) rv.congestion)) =
          (match alookup rv.connections u with
            | none => (none : EW)
            | some bw => some (ratMul (ratMul bw rv.congestion) ru.congestion))
      rw [← hcb']
      cases alookup ru.connections v with
      | none => rfl
      | some bw =>
        show some (ratMul (ratMul bw ru.congestion) rv.congestion)
            = some (ratMul (ratMul bw rv.congestion) ru.congestion)
        simp only [ratMul_eq]
        rw [mul_right_comm]

/-! ## Bounded sufficient conditions and the reference network -/

theorem new_six : NetworkCore.new 6 = some refNetwork := by
  have h : (NetworkCore.new 6).isSome := by decide
  unfold refNetwork
  cases hn : NetworkCore.new 6 with
  | none => rw [hn] at h; simp at h
  | some nc => rfl

/-- Nonnegative congestions and base weights give nonnegative effective
weights; both bounds are decidable on a concrete network. -/
theorem effNonneg_of_bounds {nc : NetworkCore}
    (hc : ∀ p ∈ nc.routers, 0 ≤ p.2.congestion)
    (hw : ∀ p ∈ nc.routers, ∀ c ∈ p.2.connections, 0 ≤ c.2) :
    EffNonneg nc := by
  intro a b
  unfold get_effective_weight
  cases ha : alookup nc.routers a with
  | none => exact ewLe_none _
  | some ra =>
    cases hb : alookup nc.routers b with
    | none => exact ewLe_none _
    | some rb =>
      show ewLe (some 0) (match alookup ra.connections b with
        | none => (none : EW)
        | some bw => some (ratMul (ratMul bw ra.congestion) rb.congestion))
      cases hab : alookup ra.connections b with
      | none => exact ewLe_none _
      | some bw =>
        show ewLe (some 0) (some (ratMul (ratMul bw ra.congestion) rb.congestion))
        have h1 : (0 : ℚ) ≤ bw := hw (a, ra) (alookup_mem ha) (b, bw) (alookup_mem hab)
        have h2 : (0 : ℚ) ≤ ra.congestion := hc (a, ra) (alookup_mem ha)
        have h3 : (0 : ℚ) ≤ rb.congestion := hc (b, rb) (alookup_mem hb)
        show (0 : ℚ) ≤ ratMul (ratMul bw ra.congestion) rb.congestion
        rw [ratMul_eq, ratMul_eq]
        exact mul_nonneg (mul_nonneg h1 h2) h3

/-- A bounded (decidable on concrete networks) sufficient condition for
consistency of a potential. -/
theorem consistent_of_forall {nc : NetworkCore} {pot : Nat → ℚ}
    (h : ∀ p ∈ nc.routers, ∀ c ∈ p.2.connections,
        ∀ rb ∈ alookup nc.routers c.1,
          pot p.1 ≤ ratAdd (ratMul (ratMul c.2 p.2.congestion) rb.congestion) (pot c.1)) :
    Consistent nc pot := by
  intro a b hab
  obtain ⟨ra, bw, ha, habw⟩ := linked_dest hab
  unfold get_effective_weight
  cases hb : alookup nc.routers b with
  | none =>
    rw [ha]
    show ewLe (some (pot a)) (ewAdd none (some (pot b)))
    exact ewLe_none _
  | some rb =>
    rw [ha]
    have hle := h (a, ra) (alookup_mem ha) (b, bw) (alookup_mem habw) rb (by rw [hb]; rfl)
    show ewLe (some (pot a))
      (ewAdd (match alookup ra.connections b with
        | none => (none : EW)
        | some bw => some (ratMul (ratMul bw ra.congestion) rb.congestion)) (some (pot b)))
    rw [habw]
    show pot a ≤ ratAdd (ratMul (ratMul bw ra.congestion) rb.congestion) (pot b)
    exact hle

/-! ## Trivial queries: start equals target -/

theorem dijkstraLoop_self (nc : NetworkCore) (x : Nat) (fuel : Nat)
    (d : Nat → EW) (pr : Nat → Option Nat) :
    dijkstraLoop nc x (fuel + 1)
      { distances := d, previous := pr, pq := [(some 0, x)], visited := [] } =
    some { distances := d, previous := pr, pq := [], visited := [] } := by
  simp [dijkstraLoop, pqMin, List.erase_cons_head]

theorem astarLoop_self (nc : NetworkCore) (x : Nat) (fuel : Nat) (k : EW)
    (g f : Nat → EW) (pr : Nat → Option Nat) :
    astarLoop nc x (fuel + 1)
      { gScore := g, fScore := f, previous := pr, openSet := [(k, x)], closedSet := [] } =
    some { gScore := g, fScore := f, previous := pr, openSet := [], closedSet := [] } := by
  simp [astarLoop, pqMin, List.erase_cons_head]

theorem walkPrevious_self (fuel : Nat) (x : Nat) :
    walkPrevious (fun _ => none) (fuel + 1) x = some [x] := rfl

theorem find_shortest_path_self {nc : NetworkCore} {x : Nat}
    (hx : (alookup nc.routers x).isSome) :
    find_shortest_path nc x x = some (some [x]) := by
  unfold find_shortest_path
  rw [if_pos ⟨hx, hx⟩]
  show (match dijkstraLoop nc x (searchFuel nc)
      { distances := fun v => if v = x then some 0 else none
        previous := fun _ => none
        pq := [(some 0, x)]
        visited := [] } with
    | none => (none : Option (Option (List Nat)))
    | some st =>
      if st.distances x = none then some none
      else (walkPrevious st.previous (walkFuel nc) x).map fun backward =>
        some backward.reverse)
    = some (some [x])
  have hfuel : searchFuel nc = degreeSum nc + 1 + 1 := rfl
  rw [hfuel, dijkstraLoop_self]
  show (if (if x = x then some 0 else (none : EW)) = none then some none
    else (walkPrevious (fun _ => none) (walkFuel nc) x).map fun backward =>
      some backward.reverse)
    = some (some [x])
  rw [if_pos rfl, if_neg (by simp)]
  have hwfu : walkFuel nc = nc.routers.length + 1 := rfl
  rw [hwfu, walkPrevious_self]
  simp

theorem find_path_astar_self {nc : NetworkCore} {x : Nat}
    (hx : (alookup nc.routers x).isSome) :
    find_path_astar nc x x = some (some [x]) := by
  unfold find_path_astar
  rw [if_pos ⟨hx, hx⟩]
  show (match astarLoop nc x (searchFuel nc)
      { gScore := fun v => if v = x then some 0 else none
        fScore := fun v => if v = x then some (heuristic nc x x) else none
        previous := fun _ => none
        openSet := [(some (heuristic nc x x), x)]
        closedSet := [] } with
    | none => (none : Option (Option (List Nat)))
    | some st =>
      if st.gScore x = none then some none
      else (walkPrevious st.previous (walkFuel nc) x).map fun backward =>
        some backward.reverse)
    = some (some [x])
  have hfuel : searchFuel nc = degreeSum nc + 1 + 1 := rfl
  rw [hfuel, astarLoop_self]
  show (if (if x = x then some 0 else (none : EW)) = none then some none
    else (walkPrevious (fun _ => none) (walkFuel nc) x).map fun backward =>
      some backward.reverse)
    = some (some [x])
  rw [if_pos rfl, if_neg (by simp)]
  have hwfu : walkFuel nc = nc.routers.length + 1 := rfl
  rw [hwfu, walkPrevious_self]
  simp

/-! # Claim theorems -/

/-- Claim C1: for every pair of router ids present in the topology and any
congestion state with nonnegative effective weights (guaranteed by the
sampling range `[0.5, 2.0]` and positive base weights), `find_path` under
the `"dijkstra"` algorithm returns a valid start-to-end path of minimal
total effective weight, and returns `None` exactly when no such path
exists. -/
theorem claim_C1 (nc : NetworkCore) (s e : Nat) (halg : nc.algorithm = "dijkstra")
    (hwf : WF nc) (hnn : EffNonneg nc) (hs : (alookup nc.routers s).isSome)
    (he : (alookup nc.routers e).isSome) :
    (∃ r, find_path nc s e = some r) ∧
    (∀ p, find_path nc s e = some (some p) →
      ValidPath nc s e p ∧ ∀ q, ValidPath nc s e q →
        ewLe (pathCost nc p) (pathCost nc q)) ∧
    (find_path nc s e = some none ↔ ¬ ∃ q, ValidPath nc s e q) := by
  have hfp : find_path nc s e = find_shortest_path nc s e := by
    unfold find_path
    rw [halg]
    rfl
  rw [hfp]
  exact find_shortest_path_spec nc s e hwf hnn hs he

/-- Witness for C1 on the reference network. -/
theorem claim_C1_witness :
    refNetwork.algorithm = "dijkstra" ∧ WF refNetwork ∧ EffNonneg refNetwork ∧
    ((∃ r, find_path refNetwork 0 5 = some r) ∧
     (∀ p, find_path refNetwork 0 5 = some (some p) →
       ValidPath refNetwork 0 5 p ∧ ∀ q, ValidPath refNetwork 0 5 q →
         ewLe (pathCost refNetwork p) (pathCost refNetwork q)) ∧
     (find_path refNetwork 0 5 = some none ↔ ¬ ∃ q, ValidPath refNetwork 0 5 q)) :=
  ⟨by decide, by decide, effNonneg_of_bounds (by decide) (by decide),
    claim_C1 refNetwork 0 5 (by decide) (by decide)
      (effNonneg_of_bounds (by decide) (by decide)) (by decide) (by decide)⟩

/-- Claim C2 (amended): on the reference topology with all congestion
multipliers at `1.0`, `FindPath(0, 5)` under `"dijkstra"` returns
`[0, 2, 4, 5]`, whose total effective weight is exactly `5.0` — not `6.0`
as the spec states — and `5.0` is the true minimum over all valid paths. -/
theorem claim_C2 :
    find_path refNetwork 0 5 = some (some [0, 2, 4, 5]) ∧
    pathCost refNetwork [0, 2, 4, 5] = some 5 ∧
    ValidPath refNetwork 0 5 [0, 2, 4, 5] ∧
    (∀ q, ValidPath refNetwork 0 5 q → ewLe (some 5) (pathCost refNetwork q)) := by
  have hres : find_shortest_path refNetwork 0 5 = some (some [0, 2, 4, 5]) := by decide
  have hspec := (find_shortest_path_spec refNetwork 0 5 (by decide)
    (effNonneg_of_bounds (by decide) (by decide)) (by decide) (by decide)).2.1
    [0, 2, 4, 5] hres
  refine ⟨by decide, by decide, hspec.1, ?_⟩
  intro q hq
  have h := hspec.2 q hq
  have hc : pathCost refNetwork [0, 2, 4, 5] = some 5 := by decide
  rwa [hc] at h

/-- Counterexample to C2 as stated: the returned path is `[0, 2, 4, 5]`
with total effective weight `5.0 ≠ 6.0` (the spec's claimed value); the
path `[0, 2, 3, 5]` does cost `6.0` but is not optimal. -/
theorem claim_C2_counterexample :
    find_path refNetwork 0 5 = some (some [0, 2, 4, 5]) ∧
    pathCost refNetwork [0, 2, 4, 5] = some 5 ∧
    pathCost refNetwork [0, 2, 3, 5] = some 6 ∧
    pathCost refNetwork [0, 2, 4, 5] ≠ some 6 := by decide

/-- Claim C3 (amended): whenever the Manhattan heuristic is *consistent*
for the instance (rather than merely admissible), A* and Dijkstra return
paths of equal total effective weight. -/
theorem claim_C3 (nc : NetworkCore) (s e : Nat) (hwf : WF nc) (hnn : EffNonneg nc)
    (hcons : Consistent nc (potTo nc e)) (hs : (alookup nc.routers s).isSome)
    (he : (alookup nc.routers e).isSome) :
    ∀ pd pa, find_shortest_path nc s e = some (some pd) →
      find_path_astar nc s e = some (some pa) →
      pathCost nc pd = pathCost nc pa := by
  intro pd pa hd ha
  obtain ⟨hvd, hmind⟩ := (find_shortest_path_spec nc s e hwf hnn hs he).2.1 pd hd
  obtain ⟨hva, hmina⟩ := (find_path_astar_spec nc s e hwf hnn hcons hs he).2.1 pa ha
  exact ewLe_antisymm (hmind pa hva) (hmina pd hvd)

/-- Witness for C3 on the reference network, where the Manhattan heuristic
is consistent towards router 5. -/
theorem claim_C3_witness :
    WF refNetwork ∧ EffNonneg refNetwork ∧
    Consistent refNetwork (potTo refNetwork 5) ∧
    pathCost refNetwork [0, 2, 4, 5] = pathCost refNetwork [0, 2, 4, 5] :=
  ⟨by decide, effNonneg_of_bounds (by decide) (by decide),
    consistent_of_forall (by decide),
    claim_C3 refNetwork 0 5 (by decide) (effNonneg_of_bounds (by decide) (by decide))
      (consistent_of_forall (by decide)) (by decide) (by decide)
      [0, 2, 4, 5] [0, 2, 4, 5] (by decide) (by decide)⟩

/-- Counterexample to C3 as stated: on the reference topology with the
congestion assignment `congX` (all values inside the sampling range), the
Manhattan heuristic is admissible towards router 5 — it underestimates the
cost of every path to 5 from every router — yet Dijkstra finds
`[0, 1, 2, 4, 5]` of cost `41/8` while A* (whose closed set never reopens
a router) returns `[0, 2, 4, 5]` of strictly larger cost `21/4`. -/
theorem claim_C3_counterexample :
    (∀ v, (alookup ncX.routers v).isSome →
      ∀ q, ValidPath ncX v 5 q → ewLe (some (heuristic ncX v 5)) (pathCost ncX q)) ∧
    find_shortest_path ncX 0 5 = some (some [0, 1, 2, 4, 5]) ∧
    find_path_astar ncX 0 5 = some (some [0, 2, 4, 5]) ∧
    pathCost ncX [0, 1, 2, 4, 5] = some (mkRat 41 8) ∧
    pathCost ncX [0, 2, 4, 5] = some (mkRat 21 4) ∧
    ewLt (pathCost ncX [0, 1, 2, 4, 5]) (pathCost ncX [0, 2, 4, 5]) := by
  refine ⟨?_, by decide, by decide, by decide, by decide, by decide⟩
  have hwfX : WF ncX := by decide
  have hnnX : EffNonneg ncX := effNonneg_of_bounds (by decide) (by decide)
  have h5 : (alookup ncX.routers 5).isSome := by decide
  intro v hv q hq
  have hmin : ∀ p, find_shortest_path ncX v 5 = some (some p) →
      ewLe (some (heuristic ncX v 5)) (pathCost ncX p) →
      ewLe (some (heuristic ncX v 5)) (pathCost ncX q) := fun p hres hh =>
    ewLe_trans hh (((find_shortest_path_spec ncX v 5 hwfX hnnX hv h5).2.1 p hres).2 q hq)
  have hkeys : ncX.routers.map Prod.fst = [0, 1, 2, 3, 4, 5] := by decide
  have hvmem : v ∈ ncX.routers.map Prod.fst := by
    obtain ⟨r, hr⟩ := Option.isSome_iff_exists.mp hv
    exact List.mem_map.mpr ⟨(v, r), alookup_mem hr, rfl⟩
  rw [hkeys] at hvmem
  simp only [List.mem_cons, List.not_mem_nil, or_false] at hvmem
  rcases hvmem with rfl | rfl | rfl | rfl | rfl | rfl
  · exact hmin [0, 1, 2, 4, 5] (by decide) (by decide)
  · exact hmin [1, 2, 4, 5] (by decide) (by decide)
  · exact hmin [2, 4, 5] (by decide) (by decide)
  · exact hmin [3, 5] (by decide) (by decide)
  · exact hmin [4, 5] (by decide) (by decide)
  · exact hmin [5] (by decide) (by decide)

/-- Claim C4: the spec requires one snapshot entry per undirected link
(E = 9 on the reference topology), but the code's dedup guard compares a
2-tuple against 4-tuples and never fires: the snapshot holds both
orientations of every link — 18 entries, including both `(0,1,...)` and
`(1,0,...)`. -/
theorem claim_C4 :
    (get_network_state refNetwork).connections.length = 18 ∧
    ¬ (get_network_state refNetwork).connections.length = 9 ∧
    (0, 1, (1 : ℚ), (some 1 : EW)) ∈ (get_network_state refNetwork).connections ∧
    (1, 0, (1 : ℚ), (some 1 : EW)) ∈ (get_network_state refNetwork).connections := by
  decide

/-- Claim C5 (amended): construction fails exactly when the requested
router count exceeds the 6-entry coordinate table; a wired link
referencing a nonexistent router id is silently dropped instead of
raising an error. -/
theorem claim_C5 : ∀ n : Nat, (NetworkCore.new n).isSome ↔ n ≤ 6 := by
  intro n
  rw [← mkRouters_isSome n]
  unfold NetworkCore.new setup_network
  cases mkRouters n <;> simp

/-- Counterexample to C5 as stated: `NetworkCore(3)` succeeds even though
the wired-link table contains `(1, 3, 3.0)` whose endpoint `3` does not
exist; the link is silently dropped. -/
theorem claim_C5_counterexample :
    ((1, 3, (3 : ℚ)) ∈ connectionsTable) ∧
    (NetworkCore.new 3).isSome ∧
    connBase ((NetworkCore.new 3).getD emptyNetwork) 1 3 = none := by decide

/-- Claim C6 (amended): every reachable state has symmetric links;
freedom from self-loops additionally requires every `add_connection` call
to have distinct endpoints (the code accepts `AddLink(a, a, w)` and
creates a self-loop); `add_connection` sets the weight on both directions
when both ids exist and is the identity otherwise. -/
theorem claim_C6 :
    (∀ nc, Reachable nc → SymmetricLinks nc) ∧
    (∀ nc, ReachableNS nc → NoSelfLoops nc) ∧
    (∀ nc r1 r2 (w : ℚ), (alookup nc.routers r1).isSome →
      (alookup nc.routers r2).isSome →
      connBase (add_connection nc r1 r2 w) r1 r2 = some w ∧
      connBase (add_connection nc r1 r2 w) r2 r1 = some w) ∧
    (∀ nc r1 r2 (w : ℚ),
      ¬ ((alookup nc.routers r1).isSome ∧ (alookup nc.routers r2).isSome) →
      add_connection nc r1 r2 w = nc) := by
  refine ⟨fun nc h => reachable_symm h, fun nc h => reachableNS_noself h, ?_, ?_⟩
  · intro nc r1 r2 w h1 h2
    constructor
    · rw [connBase_addConn, if_pos ⟨⟨h1, h2⟩, Or.inl ⟨rfl, rfl⟩⟩]
    · rw [connBase_addConn, if_pos ⟨⟨h1, h2⟩, Or.inr ⟨rfl, rfl⟩⟩]
  · intro nc r1 r2 w h
    exact add_connection_noop nc r1 r2 w h

/-- Witness for C6 on the reference network. -/
theorem claim_C6_witness :
    SymmetricLinks refNetwork ∧
    connBase (add_connection refNetwork 0 3 7) 0 3 = some 7 ∧
    connBase (add_connection refNetwork 0 3 7) 3 0 = some 7 ∧
    add_connection refNetwork 0 9 7 = refNetwork :=
  ⟨claim_C6.1 refNetwork (Reachable.construct 6 refNetwork new_six),
   (claim_C6.2.2.1 refNetwork 0 3 7 (by decide) (by decide)).1,
   (claim_C6.2.2.1 refNetwork 0 3 7 (by decide) (by decide)).2,
   claim_C6.2.2.2 refNetwork 0 9 7 (by decide)⟩

/-- Counterexample to C6 as stated: `AddLink(0, 0, 5.0)` on the reference
network is a reachable operation sequence and creates a self-loop. -/
theorem claim_C6_counterexample :
    Reachable (add_connection refNetwork 0 0 5) ∧
    connBase (add_connection refNetwork 0 0 5) 0 0 = some 5 :=
  ⟨Reachable.addLink refNetwork 0 0 5 (Reachable.construct 6 refNetwork new_six),
   by decide⟩

/-- Claim C7: in every reachable state the effective weight is symmetric
in its two arguments, including the `inf` sentinel cases. -/
theorem claim_C7 {nc : NetworkCore} (h : Reachable nc) (u v : Nat) :
    get_effective_weight nc u v = get_effective_weight nc v u :=
  eff_symm (reachable_symm h) u v

/-- Witness for C7: a linked pair and an unknown-id pair on the reference
network. -/
theorem claim_C7_witness :
    get_effective_weight refNetwork 0 1 = get_effective_weight refNetwork 1 0 ∧
    get_effective_weight refNetwork 0 9 = get_effective_weight refNetwork 9 0 :=
  ⟨claim_C7 (Reachable.construct 6 refNetwork new_six) 0 1,
   claim_C7 (Reachable.construct 6 refNetwork new_six) 0 9⟩

/-- Claim C8: for a router id present in the topology, `FindPath(x, x)`
returns `[x]` under either algorithm setting, and its total effective
weight is `0`. -/
theorem claim_C8 (nc : NetworkCore) (x : Nat) (hx : (alookup nc.routers x).isSome) :
    find_path nc x x = some (some [x]) ∧
    find_shortest_path nc x x = some (some [x]) ∧
    find_path_astar nc x x = some (some [x]) ∧
    pathCost nc [x] = some 0 := by
  refine ⟨?_, find_shortest_path_self hx, find_path_astar_self hx, rfl⟩
  unfold find_path
  by_cases halg : nc.algorithm = "astar"
  · rw [if_pos halg]
    exact find_path_astar_self hx
  · rw [if_neg halg]
    exact find_shortest_path_self hx

/-- Witness for C8 at router 3 of the reference network. -/
theorem claim_C8_witness :
    find_path refNetwork 3 3 = some (some [3]) ∧
    find_shortest_path refNetwork 3 3 = some (some [3]) ∧
    find_path_astar refNetwork 3 3 = some (some [3]) ∧
    pathCost refNetwork [3] = some 0 :=
  claim_C8 refNetwork 3 (by decide)

/-- Claim C9: both search loops (and the dispatching `find_path`) finish
within the `searchFuel` budget on every well-formed topology and for all
arguments, including unknown ids — the fuel sentinel `none` is never
returned.  `update_network_conditions` and `get_network_state` are
structurally terminating folds over the router table and need no fuel. -/
theorem claim_C9 (nc : NetworkCore) (s e : Nat) (hwf : WF nc) :
    find_shortest_path nc s e ≠ none ∧ find_path_astar nc s e ≠ none ∧
    find_path nc s e ≠ none := by
  refine ⟨find_shortest_path_total nc s e hwf, find_path_astar_total nc s e hwf, ?_⟩
  unfold find_path
  by_cases halg : nc.algorithm = "astar"
  · rw [if_pos halg]
    exact find_path_astar_total nc s e hwf
  · rw [if_neg halg]
    exact find_shortest_path_total nc s e hwf

/-- Witness for C9, with an unknown target id. -/
theorem claim_C9_witness :
    find_shortest_path refNetwork 0 9 ≠ none ∧ find_path_astar refNetwork 0 9 ≠ none ∧
    find_path refNetwork 0 9 ≠ none :=
  claim_C9 refNetwork 0 9 (by decide)

/-- Claim C10: immediately after construction every congestion multiplier
is exactly `1`, so the effective weight of every existing link equals its
base weight. -/
theorem claim_C10 {n : Nat} {nc : NetworkCore} (h : NetworkCore.new n = some nc) :
    CongOne nc ∧
    ∀ u v (w : ℚ), connBase nc u v = some w →
      get_effective_weight nc u v = some w := by
  refine ⟨new_congestion_one h, ?_⟩
  intro u v w hw
  have hwf := new_wf h
  have hcong := new_congestion_one h
  unfold connBase at hw
  cases hu : alookup nc.routers u with
  | none =>
    rw [hu] at hw
    have hw'' : (none : Option ℚ) = some w := hw
    exact absurd hw'' (by simp)
  | some ru =>
    rw [hu] at hw
    have hw' : alookup ru.connections v = some w := hw
    have hvs : (alookup nc.routers v).isSome :=
      hwf (u, ru) (alookup_mem hu) (v, w) (alookup_mem hw')
    obtain ⟨rv, hv⟩ := Option.isSome_iff_exists.mp hvs
    have hcu : ru.congestion = 1 := hcong (u, ru) (alookup_mem hu)
    have hcv : rv.congestion = 1 := hcong (v, rv) (alookup_mem hv)
    unfold get_effective_weight
    rw [hu, hv]
    show (match alookup ru.connections v with
      | none => (none : EW)
      | some bw => some (ratMul (ratMul bw ru.congestion) rv.congestion)) = some w
    rw [hw']
    show some (ratMul (ratMul w ru.congestion) rv.congestion) = some w
    rw [hcu, hcv]
    simp

/-- Witness for C10 on the freshly constructed reference network. -/
theorem claim_C10_witness :
    CongOne refNetwork ∧
    ∀ u v (w : ℚ), connBase refNetwork u v = some w →
      get_effective_weight refNetwork u v = some w :=
  claim_C10 new_six

end NetworkSim
